import Mathlib

/-! Verification development for the CLI-Crawler repository.

This file gives a shallow embedding of the crawl-orchestration core: the URL
normalizers (`utils.normalize_url` and `WebCrawler.normalize_url`), the admission
filter (`WebCrawler.is_valid_url`), the two robots.txt parsers, endpoint
grouping (`WebCrawler._group_endpoints`), and the frontier loop
(`WebCrawler.crawl` / `WebCrawler.crawl_page`), together with theorems that check
the specification's claims against the embedding.

Python strings are modelled as `List Char`.  The model of CPython's
`urllib.parse` helpers (`urlparse`, `parse_qs`, `urlencode`, `quote_plus`,
`unquote`) is exact for ASCII input; non-ASCII characters go through an explicit
UTF-8 byte model.  `Except Unit`/`Except Str` model raised exceptions.  Network
I/O, wall-clock timestamps and rate-limit sleeps are outside the embedding; the
fetch strategies and the stdlib `RobotFileParser` gate are oracles supplied as
parameters of the crawl loop. -/

/-- Python strings are modelled as lists of characters. -/
abbrev Str : Type := List Char

deriving instance DecidableEq for Except

namespace Py

/-- Characters stripped by Python `str.strip()` (ASCII whitespace). -/
def isSpaceChar (c : Char) : Bool :=
  c = ' ' || c = '\t' || c = '\n' || c = '\r' || c = '\x0b' || c = '\x0c'

/-- Model of Python `str.strip()`. -/
def strip (s : Str) : Str :=
  ((s.dropWhile isSpaceChar).reverse.dropWhile isSpaceChar).reverse

/-- ASCII lowercasing of one character, as Python `str.lower()` acts on ASCII. -/
def lowerChar (c : Char) : Char :=
  if 65 ≤ c.toNat ∧ c.toNat ≤ 90 then Char.ofNat (c.toNat + 32) else c

/-- Model of Python `str.lower()` (exact on ASCII input). -/
def lower (s : Str) : Str := s.map lowerChar

/-- Model of Python `str.split(sep)` for a one-character separator. -/
def splitChar (sep : Char) : Str → List Str
  | [] => [[]]
  | c :: rest =>
    if c = sep then [] :: splitChar sep rest
    else
      match splitChar sep rest with
      | [] => [[c]]
      | s :: ss => (c :: s) :: ss

/-- Model of Python `str.split(sep, 1)`: split at the first occurrence of `sep`,
`none` when `sep` is absent. -/
def splitOnce (sep : Char) : Str → Option (Str × Str)
  | [] => none
  | c :: rest =>
    if c = sep then some ([], rest)
    else (splitOnce sep rest).map (fun p => (c :: p.1, p.2))

/-- Model of Python `str.startswith pat`: `beginsWith pat s`. -/
def beginsWith : Str → Str → Bool
  | [], _ => true
  | _ :: _, [] => false
  | p :: ps, c :: cs => p = c && beginsWith ps cs

/-- Model of Python `s.endswith(pat)`. -/
def endsIn (s pat : Str) : Bool := beginsWith pat.reverse s.reverse

/-- Model of the Python substring test `pat in s`. -/
def hasSub (pat : Str) : Str → Bool
  | [] => beginsWith pat []
  | c :: rest => beginsWith pat (c :: rest) || hasSub pat rest

/-- UTF-8 encoding of one code point (as `str.encode('utf-8')` produces per
character). -/
def utf8EncodeChar (n : Nat) : List Nat :=
  if n < 0x80 then [n]
  else if n < 0x800 then [0xC0 + n / 64, 0x80 + n % 64]
  else if n < 0x10000 then [0xE0 + n / 4096, 0x80 + n / 64 % 64, 0x80 + n % 64]
  else [0xF0 + n / 262144, 0x80 + n / 4096 % 64, 0x80 + n / 64 % 64, 0x80 + n % 64]

/-- Uppercase hex digit, as `urllib.parse.quote` emits. -/
def hexDigit (n : Nat) : Char := if n < 10 then Char.ofNat (48 + n) else Char.ofNat (55 + n)

/-- Value of one hex digit (either case), as `urllib.parse.unquote` accepts. -/
def hexVal (c : Char) : Option Nat :=
  if 48 ≤ c.toNat ∧ c.toNat ≤ 57 then some (c.toNat - 48)
  else if 65 ≤ c.toNat ∧ c.toNat ≤ 70 then some (c.toNat - 55)
  else if 97 ≤ c.toNat ∧ c.toNat ≤ 102 then some (c.toNat - 87)
  else none

/-- Characters `urllib.parse.quote` never encodes (its always-safe set:
ASCII letters, digits, `_.-~`). -/
def alwaysSafe (c : Char) : Bool :=
  (65 ≤ c.toNat ∧ c.toNat ≤ 90) || (97 ≤ c.toNat ∧ c.toNat ≤ 122) ||
    (48 ≤ c.toNat ∧ c.toNat ≤ 57) || c = '_' || c = '.' || c = '-' || c = '~'

/-- Percent-encoding of one byte. -/
def pctByte (b : Nat) : Str := ['%', hexDigit (b / 16), hexDigit (b % 16)]

/-- Model of `urllib.parse.quote_plus` with `safe=''`, as `urlencode`'s default
`quote_via` uses it: safe characters pass, space becomes `+`, everything else is
percent-encoded per UTF-8 byte. -/
def quotePlus (s : Str) : Str :=
  s.foldr
    (fun c acc =>
      if alwaysSafe c then c :: acc
      else if c = ' ' then '+' :: acc
      else (utf8EncodeChar c.toNat).foldr (fun b a => pctByte b ++ a) acc) []

/-- Replacement character produced by `errors='replace'` UTF-8 decoding. -/
def replChar : Char := '�'

/-- Continuation byte test for UTF-8 decoding. -/
def isCont (b : Nat) : Bool := 0x80 ≤ b && b < 0xC0

/-- Second-byte admissibility for a 3-byte UTF-8 lead (excludes overlong forms and
surrogates, as CPython's decoder does). -/
def cont3 (b b1 : Nat) : Bool :=
  isCont b1 && !(b = 0xE0 && b1 < 0xA0) && !(b = 0xED && 0xA0 ≤ b1)

/-- Second-byte admissibility for a 4-byte UTF-8 lead. -/
def cont4 (b b1 : Nat) : Bool :=
  isCont b1 && !(b = 0xF0 && b1 < 0x90) && !(b = 0xF4 && 0x90 ≤ b1)

/-- Model of `bytes.decode('utf-8', errors='replace')`: maximal invalid subparts
are replaced by `replChar`. -/
def utf8Decode : List Nat → Str
  | [] => []
  | b :: rest =>
    if b < 0x80 then Char.ofNat b :: utf8Decode rest
    else if b < 0xC2 then replChar :: utf8Decode rest
    else if b < 0xE0 then
      match rest with
      | [] => [replChar]
      | b1 :: r =>
        if isCont b1 then Char.ofNat ((b - 0xC0) * 64 + (b1 - 0x80)) :: utf8Decode r
        else replChar :: utf8Decode (b1 :: r)
    else if b < 0xF0 then
      match rest with
      | [] => [replChar]
      | b1 :: r =>
        if cont3 b b1 then
          match r with
          | [] => [replChar]
          | b2 :: r2 =>
            if isCont b2 then
              Char.ofNat ((b - 0xE0) * 4096 + (b1 - 0x80) * 64 + (b2 - 0x80)) :: utf8Decode r2
            else replChar :: utf8Decode (b2 :: r2)
        else replChar :: utf8Decode (b1 :: r)
    else if b < 0xF5 then
      match rest with
      | [] => [replChar]
      | b1 :: r =>
        if cont4 b b1 then
          match r with
          | [] => [replChar]
          | b2 :: r2 =>
            if isCont b2 then
              match r2 with
              | [] => [replChar]
              | b3 :: r3 =>
                if isCont b3 then
                  Char.ofNat ((b - 0xF0) * 262144 + (b1 - 0x80) * 4096 +
                      (b2 - 0x80) * 64 + (b3 - 0x80)) :: utf8Decode r3
                else replChar :: utf8Decode (b3 :: r3)
            else replChar :: utf8Decode (b2 :: r2)
        else replChar :: utf8Decode (b1 :: r)
    else replChar :: utf8Decode rest

/-- Tokenization step of `urllib.parse.unquote`: a `%XX` escape with two hex
digits yields a byte, everything else stays a literal character. -/
def pctTokenize : Str → List (Sum Char Nat)
  | [] => []
  | '%' :: c1 :: c2 :: rest2 =>
    match hexVal c1, hexVal c2 with
    | some h, some l => Sum.inr (16 * h + l) :: pctTokenize rest2
    | _, _ => Sum.inl '%' :: pctTokenize (c1 :: c2 :: rest2)
  | c :: rest => Sum.inl c :: pctTokenize rest

/-- Decode a token stream: literal characters pass through, maximal runs of
percent-decoded bytes are UTF-8 decoded together (as CPython's `unquote` does;
the accumulator holds the current byte run, reversed). -/
def pctDecodeAux : List (Sum Char Nat) → List Nat → Str
  | [], acc => utf8Decode acc.reverse
  | Sum.inl c :: rest, acc => utf8Decode acc.reverse ++ c :: pctDecodeAux rest []
  | Sum.inr b :: rest, acc => pctDecodeAux rest (b :: acc)

/-- Model of `urllib.parse.unquote` (UTF-8, `errors='replace'`). -/
def unquote (s : Str) : Str := pctDecodeAux (pctTokenize s) []

/-- Model of `str.replace('+', ' ')`, as `parse_qsl` applies before unquoting. -/
def plusToSpace (s : Str) : Str := s.map fun c => if c = '+' then ' ' else c

/-- Model of Python `str.isdigit` (exact on ASCII input). -/
def isDigitChar (c : Char) : Bool := 48 ≤ c.toNat && c.toNat ≤ 57

end Py

namespace Urllib

open Py

/-- Model of `urllib.parse.parse_qsl` with default arguments: split on `&`, skip
empty fields, drop fields without `=` and fields with a blank value, unquote
names and values. -/
def parse_qsl (qs : Str) : List (Str × Str) :=
  (splitChar '&' qs).foldr
    (fun nv acc =>
      if nv = [] then acc
      else
        match splitOnce '=' nv with
        | none => acc
        | some (n, v) =>
          if v = [] then acc
          else (unquote (plusToSpace n), unquote (plusToSpace v)) :: acc) []

/-- Append one `(key, value)` pair into the insertion-ordered multi-dict that
`parse_qs` builds. -/
def qsInsert (d : List (Str × List Str)) (k : Str) (v : Str) : List (Str × List Str) :=
  match d with
  | [] => [(k, [v])]
  | (k', vs) :: rest => if k' = k then (k', vs ++ [v]) :: rest else (k', vs) :: qsInsert rest k v

/-- Model of `urllib.parse.parse_qs` (a dict in key-insertion order). -/
def parse_qs (qs : Str) : List (Str × List Str) :=
  (parse_qsl qs).foldl (fun d p => qsInsert d p.1 p.2) []

/-- Python string comparison `<` (lexicographic by code point). -/
def strLt : Str → Str → Bool
  | [], [] => false
  | [], _ :: _ => true
  | _ :: _, [] => false
  | x :: xs, y :: ys =>
    if x.toNat < y.toNat then true else if y.toNat < x.toNat then false else strLt xs ys

/-- One insertion step of `sorted(params.items())` (stable sort by key; the keys
of a dict are distinct, so the key alone decides). -/
def sortInsert (x : Str × List Str) : List (Str × List Str) → List (Str × List Str)
  | [] => [x]
  | y :: ys => if strLt x.1 y.1 then x :: y :: ys else y :: sortInsert x ys

/-- Model of Python `sorted` on `params.items()`. -/
def sortItems (l : List (Str × List Str)) : List (Str × List Str) :=
  l.foldr sortInsert []

/-- Python `'&'.join`. -/
def joinAmp : List Str → Str
  | [] => []
  | [x] => x
  | x :: y :: rest => x ++ '&' :: joinAmp (y :: rest)

/-- Model of `urllib.parse.urlencode(items, doseq=True)`: one `k=v` field per
element of each value list, keys and values quoted with `quote_plus`. -/
def urlencode (items : List (Str × List Str)) : Str :=
  joinAmp (items.foldr (fun kv acc => kv.2.map (fun v => quotePlus kv.1 ++ '=' :: quotePlus v) ++ acc) [])

/-- Valid characters of a URL scheme after its first character (CPython's
`scheme_chars`). -/
def schemeCharOk (c : Char) : Bool :=
  (65 ≤ c.toNat ∧ c.toNat ≤ 90) || (97 ≤ c.toNat ∧ c.toNat ≤ 122) ||
    (48 ≤ c.toNat ∧ c.toNat ≤ 57) || c = '+' || c = '-' || c = '.'

/-- ASCII letter test (CPython checks `url[0].isascii() and url[0].isalpha()`). -/
def isAsciiAlpha (c : Char) : Bool :=
  (65 ≤ c.toNat ∧ c.toNat ≤ 90) || (97 ≤ c.toNat ∧ c.toNat ≤ 122)

/-- Scan scheme characters up to a `:`; mirrors CPython's find-first-colon plus
validation of the characters before it. -/
def schemeLoop : Str → Option (Str × Str)
  | [] => none
  | c :: cs =>
    if c = ':' then some ([], cs)
    else if schemeCharOk c then (schemeLoop cs).map (fun p => (c :: p.1, p.2)) else none

/-- Split off `scheme:` when present, lowercasing the scheme (CPython `urlsplit`
scheme handling; exact for ASCII). -/
def splitScheme : Str → Str × Str
  | [] => ([], [])
  | c :: cs =>
    if isAsciiAlpha c then
      match schemeLoop cs with
      | some (tail, rest) => (lower (c :: tail), rest)
      | none => ([], c :: cs)
    else ([], c :: cs)

/-- Characters ending the netloc in CPython's `_splitnetloc`. -/
def netlocStop (c : Char) : Bool := c = '/' || c = '?' || c = '#'

/-- Split fragment, then query, as `urlsplit` does after removing the netloc;
returns `(path, query, fragment)`. -/
def splitFragQuery (u : Str) : Str × Str × Str :=
  let uf := match splitOnce '#' u with | some p => p | none => (u, [])
  let pq := match splitOnce '?' uf.1 with | some p => p | none => (uf.1, [])
  (pq.1, pq.2, uf.2)

/-- Result record of `urlsplit`. -/
structure SplitResult where
  scheme : Str
  netloc : Str
  path : Str
  query : Str
  fragment : Str
deriving DecidableEq

/-- Model of `urllib.parse.urlsplit`; `.error` models the `ValueError` ("Invalid
IPv6 URL") raised when the netloc holds a `[` without `]` or vice versa. -/
def urlsplit (url : Str) : Except Unit SplitResult :=
  let sp := splitScheme url
  match sp.2 with
  | '/' :: '/' :: r =>
    let netloc := r.takeWhile fun c => !netlocStop c
    let r2 := r.dropWhile fun c => !netlocStop c
    if (netloc.contains '[' && !netloc.contains ']') ||
        (netloc.contains ']' && !netloc.contains '[') then
      .error ()
    else
      let pqf := splitFragQuery r2
      .ok ⟨sp.1, netloc, pqf.1, pqf.2.1, pqf.2.2⟩
  | rest =>
    let pqf := splitFragQuery rest
    .ok ⟨sp.1, [], pqf.1, pqf.2.1, pqf.2.2⟩

/-- Split `p = pre ++ '/' :: post` at the last slash (`none` when `p` has no
slash); `post` holds no slash. -/
def splitLastSlash (p : Str) : Option (Str × Str) :=
  match splitOnce '/' p.reverse with
  | some q => some (q.2.reverse, q.1.reverse)
  | none => none

/-- Model of CPython `urllib.parse._splitparams`: split at the first `;` of the
last path segment. -/
def splitParams (p : Str) : Str × Str :=
  match splitLastSlash p with
  | some pp =>
    match splitOnce ';' pp.2 with
    | some ab => (pp.1 ++ '/' :: ab.1, ab.2)
    | none => (p, [])
  | none =>
    match splitOnce ';' p with
    | some ab => (ab.1, ab.2)
    | none => (p, [])

/-- Result record of `urlparse`. -/
structure ParseResult where
  scheme : Str
  netloc : Str
  path : Str
  params : Str
  query : Str
  fragment : Str
deriving DecidableEq

/-- Model of `urllib.parse.urlparse`: `urlsplit` plus params splitting on the
path. -/
def urlparse (url : Str) : Except Unit ParseResult :=
  match urlsplit url with
  | .error e => .error e
  | .ok r =>
    let pp := splitParams r.path
    .ok ⟨r.scheme, r.netloc, pp.1, pp.2, r.query, r.fragment⟩

end Urllib

namespace Utils

/-- Model of `utils.normalize_url` (src/utils.py lines 14-40): drop the fragment
(and, through `urlparse`, the params of the last path segment), and re-encode a
present query with its parameters sorted by key.  The `try/except` returns the
input unchanged when `urlparse` raises. -/
def normalize_url (url : Str) : Str :=
  match Urllib.urlparse url with
  | .error _ => url
  | .ok p =>
    let normalized := p.scheme ++ ':' :: '/' :: '/' :: (p.netloc ++ p.path)
    if p.query ≠ [] then
      normalized ++ '?' :: Urllib.urlencode (Urllib.sortItems (Urllib.parse_qs p.query))
    else normalized

/-- Parser state of `utils.parse_robots_txt_content`: the current `User-agent`
scope plus the accumulated directives.  The `crawl_delay` float is outside the
embedding (floating point); no claim depends on it. -/
structure RobotsData where
  current : Option Str
  disallowed : List Str
  allowed : List Str
  user_agents : List Str
deriving DecidableEq

/-- Processing of one line by `utils.parse_robots_txt_content` (src/utils.py
lines 448-472): strip, skip blanks and comments, split at the first `:`, then
dispatch on the lowercased directive name; `Disallow`/`Allow` values are
recorded only when the current user-agent is `*` or none has been seen. -/
def parseRobotsLine (st : RobotsData) (rawLine : Str) : RobotsData :=
  let line := Py.strip rawLine
  if line = [] then st
  else if Py.beginsWith ("#".toList) line then st
  else
    match Py.splitOnce ':' line with
    | none => st
    | some dv =>
      let directive := Py.lower (Py.strip dv.1)
      let value := Py.strip dv.2
      if directive = "user-agent".toList then
        { st with
          current := some value
          user_agents :=
            if value ∈ st.user_agents then st.user_agents else st.user_agents ++ [value] }
      else if directive = "disallow".toList then
        if st.current = some ("*".toList) ∨ st.current = none then
          { st with disallowed := st.disallowed ++ [value] }
        else st
      else if directive = "allow".toList then
        if st.current = some ("*".toList) ∨ st.current = none then
          { st with allowed := st.allowed ++ [value] }
        else st
      else st

/-- Model of `utils.parse_robots_txt_content` (src/utils.py lines 430-479). -/
def parse_robots_txt_content (content : Str) : RobotsData :=
  (Py.splitChar '\n' content).foldl parseRobotsLine ⟨none, [], [], []⟩

end Utils

namespace RobotsTxtParser

/-- State of `RobotsTxtParser.parse_robots_txt`; the Python sets are modelled as
insertion-ordered lists without duplicates. -/
structure RobotsSets where
  disallowed_paths : List Str
  allowed_paths : List Str
deriving DecidableEq

/-- Python `set.add`. -/
def setAdd (l : List Str) (x : Str) : List Str := if x ∈ l then l else l ++ [x]

/-- Processing of one line of robots.txt content by
`RobotsTxtParser.parse_robots_txt` (src/crawler.py lines 121-133): a
`Disallow:` / `Allow:` line is recorded with no regard to `User-agent:`
scoping.  The `Crawl-delay:` float parse is outside the embedding. -/
def parseLine (st : RobotsSets) (rawLine : Str) : RobotsSets :=
  let line := Py.strip rawLine
  if Py.beginsWith ("Disallow:".toList) line then
    match Py.splitOnce ':' line with
    | some dv => { st with disallowed_paths := setAdd st.disallowed_paths (Py.strip dv.2) }
    | none => st
  else if Py.beginsWith ("Allow:".toList) line then
    match Py.splitOnce ':' line with
    | some dv => { st with allowed_paths := setAdd st.allowed_paths (Py.strip dv.2) }
    | none => st
  else st

/-- Model of the parsing loop of `RobotsTxtParser.parse_robots_txt` over fetched
robots.txt content (the surrounding HTTP fetch and the stdlib `RobotFileParser`
are oracles elsewhere). -/
def parse_robots_txt (content : Str) : RobotsSets :=
  (Py.splitChar '\n' content).foldl parseLine ⟨[], []⟩

end RobotsTxtParser

namespace WebCrawler

/-- Model of `WebCrawler.normalize_url` (src/crawler.py lines 275-282): drop the
fragment, keep the query verbatim.  There is no exception handler, so a parse
failure propagates (`.error` models the raised `ValueError`). -/
def normalize_url (url : Str) : Except Unit Str :=
  match Urllib.urlparse url with
  | .error e => .error e
  | .ok p =>
    .ok (p.scheme ++ ':' :: '/' :: '/' ::
      (p.netloc ++ p.path ++ (if p.query ≠ [] then '?' :: p.query else [])))

/-- Buckets built by `WebCrawler._group_endpoints`. -/
structure EndpointGroups where
  api : List Str
  rest : List Str
  versioned : List Str
  other : List Str
deriving DecidableEq

/-- One classification step of `_group_endpoints` (src/crawler.py lines
861-875): the `versioned` arm tests `'/v' in endpoint` together with
`any(c.isdigit() for c in endpoint)` — a digit anywhere in the string. -/
def groupStep (g : EndpointGroups) (e : Str) : EndpointGroups :=
  if Py.hasSub ("/api/".toList) e then { g with api := g.api ++ [e] }
  else if Py.hasSub ("/rest/".toList) e then { g with rest := g.rest ++ [e] }
  else if Py.hasSub ("/v".toList) e && e.any Py.isDigitChar then
    { g with versioned := g.versioned ++ [e] }
  else { g with other := g.other ++ [e] }

/-- Model of `WebCrawler._group_endpoints`. -/
def _group_endpoints (endpoints : List Str) : EndpointGroups :=
  endpoints.foldl groupStep ⟨[], [], [], []⟩

/-- Modelled from the spec's words, for comparison in claim C8: an endpoint
counts as `versioned` exactly when its path contains `/v` immediately followed
by a digit. -/
def versionedSpec : Str → Bool
  | [] => false
  | '/' :: 'v' :: c :: rest => Py.isDigitChar c || versionedSpec ('v' :: c :: rest)
  | _ :: rest => versionedSpec rest

/-- Bucket condition of the first `_group_endpoints` arm. -/
def isApiEndpoint (e : Str) : Bool := Py.hasSub ("/api/".toList) e

/-- Bucket condition of the second `_group_endpoints` arm (check order makes it
exclusive with the first). -/
def isRestEndpoint (e : Str) : Bool :=
  !isApiEndpoint e && Py.hasSub ("/rest/".toList) e

/-- Bucket condition of the third `_group_endpoints` arm: the code's test is a
`/v` substring anywhere plus a digit anywhere. -/
def isVersionedEndpoint (e : Str) : Bool :=
  !isApiEndpoint e && !Py.hasSub ("/rest/".toList) e &&
    (Py.hasSub ("/v".toList) e && e.any Py.isDigitChar)

/-- Bucket condition of the fallback `_group_endpoints` arm. -/
def isOtherEndpoint (e : Str) : Bool :=
  !isApiEndpoint e && !Py.hasSub ("/rest/".toList) e &&
    !(Py.hasSub ("/v".toList) e && e.any Py.isDigitChar)

/-- Model of `CrawlConfig` after `WebCrawler.__init__` has filled the `None`
defaults (src/crawler.py lines 50-79 and 183-200).  The extension sets are
insertion-ordered lists; floats (`delay`), network settings (timeout, headers,
cookies, concurrency) and the strategy/feature toggles other than the robots
flags are not load-bearing for any claim and are omitted. -/
structure CrawlConfig where
  base_url : Str
  max_depth : Nat
  max_pages : Nat
  respect_robots : Bool
  override_robots : Bool
  include_subdomains : Bool
  ignored_extensions : List Str
  focused_extensions : List Str
deriving DecidableEq

/-- The `ignored_extensions` default filled by `WebCrawler.__init__` (line 184). -/
def defaultIgnoredExtensions : List Str :=
  [".pdf".toList, ".zip".toList, ".exe".toList, ".dmg".toList,
    ".mp4".toList, ".mp3".toList, ".avi".toList]

/-- The `focused_extensions` default filled by `WebCrawler.__init__` (line 186). -/
def defaultFocusedExtensions : List Str :=
  [".html".toList, ".php".toList, ".asp".toList, ".aspx".toList,
    ".jsp".toList, ".js".toList, ".css".toList]

/-- The `__init__` defaulting for `config.ignored_extensions` (lines 183-184). -/
def initIgnoredExtensions (o : Option (List Str)) : List Str :=
  o.getD defaultIgnoredExtensions

/-- The `__init__` defaulting for `config.focused_extensions` (lines 185-186). -/
def initFocusedExtensions (o : Option (List Str)) : List Str :=
  o.getD defaultFocusedExtensions

/-- Model of `WebCrawler.is_valid_url` (src/crawler.py lines 248-273).  Every
exception path — a `urlparse` `ValueError`, or the `IndexError` raised by
`base_parsed.netloc.split('.', 1)[1]` when the base netloc has no dot — returns
`False` through the `except`. -/
def is_valid_url (cfg : CrawlConfig) (url : Str) : Bool :=
  match Urllib.urlparse url, Urllib.urlparse cfg.base_url with
  | .ok parsed, .ok base =>
    let domainOk :=
      if !cfg.include_subdomains then
        decide (parsed.netloc = base.netloc)
      else
        match Py.splitOnce '.' base.netloc with
        | some d => Py.endsIn parsed.netloc d.2
        | none => false
    if !domainOk then false
    else
      let path := Py.lower parsed.path
      if cfg.ignored_extensions ≠ [] &&
          cfg.ignored_extensions.any (fun ext => Py.endsIn path ext) then false
      else if cfg.focused_extensions ≠ [] &&
          !cfg.focused_extensions.any (fun ext => Py.endsIn path ext) then false
      else true
  | _, _ => false

/-- Model of link extraction (`_extract_links_playwright`, src/crawler.py lines
492-507, the default strategy): each absolute anchor target (the `urljoin`
against the page URL is part of the fetch oracle's output) is kept when
`is_valid_url` accepts it, recorded in normalized form; a per-link exception
(e.g. a normalizer `ValueError`) skips just that link. -/
def extract_links (cfg : CrawlConfig) (hrefs : List Str) : List Str :=
  hrefs.foldr
    (fun h acc =>
      if is_valid_url cfg h then
        match normalize_url h with
        | .ok n => n :: acc
        | .error _ => acc
      else acc) []

/-- Artifacts one successful fetch-and-parse yields, as the two fetch strategies
plus the extractor helpers produce them; supplied by the fetch oracle.  `hrefs`
are the page's absolute anchor targets (after `urljoin`); form records are kept
opaque. -/
structure PageData where
  status : Nat
  content_type : Str
  title : Str
  hrefs : List Str
  forms : List Str
  api_endpoints : List Str
  js_files : List Str
  hidden_fields : List Str
  csrf_tokens : List Str
deriving DecidableEq

/-- Model of the `CrawlResult` dataclass (src/crawler.py lines 81-98).  Cookies,
headers and the wall-clock timestamp are not load-bearing for any claim and are
omitted. -/
structure CrawlResult where
  url : Str
  status_code : Nat
  content_type : Str
  title : Str
  forms : List Str
  links : List Str
  api_endpoints : List Str
  js_files : List Str
  hidden_fields : List Str
  csrf_tokens : List Str
  depth : Nat
  error : Option Str
deriving DecidableEq

/-- Environment of one run: the configuration plus oracles for the stdlib
robots gate (`RobotFileParser.can_fetch`, whose `.error` models a raised
exception) and for fetch-and-parse of one page (`.error` models any exception
raised while fetching or parsing). -/
structure CrawlEnv where
  cfg : CrawlConfig
  can_fetch : Str → Except Str Bool
  fetch : Str → Except Str PageData

/-- The crawler state the loop mutates, plus a ghost `fetchLog` recording each
URL for which the fetch oracle was actually consulted. -/
structure CrawlState where
  visited_urls : List Str
  url_queue : List (Str × Nat)
  results : List CrawlResult
  fetchLog : List Str
deriving DecidableEq

/-- Build the successful-page `CrawlResult` (strategy output plus extraction). -/
def mkResult (env : CrawlEnv) (url : Str) (depth : Nat) (page : PageData) : CrawlResult :=
  { url := url
    status_code := page.status
    content_type := page.content_type
    title := page.title
    forms := page.forms
    links := extract_links env.cfg page.hrefs
    api_endpoints := page.api_endpoints
    js_files := page.js_files
    hidden_fields := page.hidden_fields
    csrf_tokens := page.csrf_tokens
    depth := depth
    error := none }

/-- The error `CrawlResult` built in `crawl_page`'s `except` arm (src/crawler.py
lines 331-349): empty artifact lists, status 0, the exception text in `error`. -/
def errorResult (url : Str) (depth : Nat) (e : Str) : CrawlResult :=
  { url := url, status_code := 0, content_type := [], title := [], forms := []
    links := [], api_endpoints := [], js_files := [], hidden_fields := []
    csrf_tokens := [], depth := depth, error := some e }

/-- Model of `WebCrawler.crawl_page` (src/crawler.py lines 305-349): skip an
already-visited URL, otherwise mark it visited, consult the robots gate when
configured (a raised exception lands in the `except` arm), then fetch and
extract.  The success path appends its result to `results` inside the `try`; the
`except` arm only returns the error result without appending it. -/
def crawl_page (env : CrawlEnv) (s : CrawlState) (url : Str) (depth : Nat) :
    Option CrawlResult × CrawlState :=
  if url ∈ s.visited_urls then (none, s)
  else
    let s1 := { s with visited_urls := s.visited_urls ++ [url] }
    let doFetch : Option CrawlResult × CrawlState :=
      let s2 := { s1 with fetchLog := s1.fetchLog ++ [url] }
      match env.fetch url with
      | .ok page =>
        let r := mkResult env url depth page
        (some r, { s2 with results := s2.results ++ [r] })
      | .error e => (some (errorResult url depth e), s2)
    if env.cfg.respect_robots && !env.cfg.override_robots then
      match env.can_fetch url with
      | .error e => (some (errorResult url depth e), s1)
      | .ok false => (none, s1)
      | .ok true => doFetch
    else doFetch

/-- The crawl loop of `WebCrawler.crawl` (src/crawler.py lines 760-777),
fuel-indexed (loop termination is not itself one of the claims): loop while the
queue is non-empty and fewer than `max_pages` results are collected; drop a task
whose depth exceeds `max_depth`; crawl the page; follow the links of an
error-free result, enqueueing those not yet visited at `depth + 1`. -/
def crawlLoop (env : CrawlEnv) : Nat → CrawlState → CrawlState
  | 0, s => s
  | fuel + 1, s =>
    match s.url_queue with
    | [] => s
    | (url, depth) :: rest =>
      if s.results.length < env.cfg.max_pages then
        let s0 := { s with url_queue := rest }
        if depth > env.cfg.max_depth then crawlLoop env fuel s0
        else
          let rs := crawl_page env s0 url depth
          let s2 :=
            match rs.1 with
            | some r =>
              if r.error = none then
                { rs.2 with
                  url_queue := rs.2.url_queue ++
                    (r.links.filter (fun l => !decide (l ∈ rs.2.visited_urls))).map
                      (fun l => (l, depth + 1)) }
              else rs.2
            | none => rs.2
          crawlLoop env fuel s2
      else s

/-- Initial crawler state (`WebCrawler.__init__`, src/crawler.py lines 161-163):
empty visited set and results, the frontier seeded with `(base_url, 0)`. -/
def initState (cfg : CrawlConfig) : CrawlState :=
  { visited_urls := [], url_queue := [(cfg.base_url, 0)], results := [], fetchLog := [] }

/-- The loop phase of `WebCrawler.crawl` starting from the seeded frontier (the
optional collaborator passes only add further depth-0 queue entries before the
loop; theorems over an arbitrary initial state cover them). -/
def crawl (env : CrawlEnv) (fuel : Nat) : CrawlState :=
  crawlLoop env fuel (initState env.cfg)

/-- The `detailed_results` list of the report `_generate_report` builds: exactly
the collected results, one entry per appended `CrawlResult` (src/crawler.py line
821). -/
def detailed_results (s : CrawlState) : List CrawlResult := s.results

end WebCrawler

/-- Predicate taken from claim C10's wording: does the URL parse and its
(lowercased) path end with one of the default focused extensions? -/
def hasFocusedExtension (url : Str) : Bool :=
  match Urllib.urlparse url with
  | .ok p =>
    WebCrawler.defaultFocusedExtensions.any (fun ext => Py.endsIn (Py.lower p.path) ext)
  | .error _ => false

/-- A configuration with the `__init__`-filled default extension sets, as a
fully defaulted `CrawlConfig(base_url="http://host")` yields. -/
def cfgHostDefaults : WebCrawler.CrawlConfig :=
  ⟨"http://host".toList, 5, 1000, true, false, false,
    WebCrawler.defaultIgnoredExtensions, WebCrawler.defaultFocusedExtensions⟩

/-- A page with no artifacts and no links, used by the concrete runs. -/
def pageBlank : WebCrawler.PageData :=
  ⟨200, "text/html".toList, [], [], [], [], [], [], []⟩

/-- Configuration of the concrete error-isolation run (robots gate bypassed via
`respect_robots := false` so the fetch behaviour is what is on display). -/
def cfgErrRun : WebCrawler.CrawlConfig :=
  ⟨"http://h/i.html".toList, 5, 1000, false, false, false,
    WebCrawler.defaultIgnoredExtensions, WebCrawler.defaultFocusedExtensions⟩

/-- Error-isolation run: the seed page links to `a.html`, whose fetch raises,
and `b.html`, which fetches fine. -/
def envErrRun : WebCrawler.CrawlEnv :=
  { cfg := cfgErrRun
    can_fetch := fun _ => .ok true
    fetch := fun u =>
      if u = "http://h/i.html".toList then
        .ok { pageBlank with hrefs := ["http://h/a.html".toList, "http://h/b.html".toList] }
      else if u = "http://h/a.html".toList then .error ("Timeout".toList)
      else .ok pageBlank }

/-- Configuration of the concrete duplicate-fetch run: the seed URL carries a
fragment, so it differs as a string from its own normalized form. -/
def cfgDupRun : WebCrawler.CrawlConfig :=
  ⟨"http://h/a.html#f".toList, 5, 1000, false, false, false,
    WebCrawler.defaultIgnoredExtensions, WebCrawler.defaultFocusedExtensions⟩

/-- Duplicate-fetch run: the seed page links to the fragment-free form of its
own URL. -/
def envDupRun : WebCrawler.CrawlEnv :=
  { cfg := cfgDupRun
    can_fetch := fun _ => .ok true
    fetch := fun u =>
      if u = "http://h/a.html#f".toList then
        .ok { pageBlank with hrefs := ["http://h/a.html".toList] }
      else .ok pageBlank }


namespace WebCrawler

/-- Case analysis of `crawl_page`: skip when visited; otherwise the URL is
marked visited and the outcome is a robots-gate exception, a robots denial, a
fetch exception (result returned but not appended) or a success (result
appended). -/
theorem crawl_page_spec (env : CrawlEnv) (s : CrawlState) (url : Str) (depth : Nat) :
    (url ∈ s.visited_urls ∧ crawl_page env s url depth = (none, s)) ∨
    (url ∉ s.visited_urls ∧
      ((∃ e, crawl_page env s url depth =
          (some (errorResult url depth e), { s with visited_urls := s.visited_urls ++ [url] })) ∨
        crawl_page env s url depth = (none, { s with visited_urls := s.visited_urls ++ [url] }) ∨
        (∃ e, env.fetch url = .error e ∧ crawl_page env s url depth =
          (some (errorResult url depth e),
            { s with visited_urls := s.visited_urls ++ [url],
                     fetchLog := s.fetchLog ++ [url] })) ∨
        (∃ page, env.fetch url = .ok page ∧ crawl_page env s url depth =
          (some (mkResult env url depth page),
            { s with visited_urls := s.visited_urls ++ [url],
                     fetchLog := s.fetchLog ++ [url],
                     results := s.results ++ [mkResult env url depth page] })))) := by
  by_cases h : url ∈ s.visited_urls
  · exact Or.inl ⟨h, by simp [crawl_page, h]⟩
  · refine Or.inr ⟨h, ?_⟩
    by_cases hg : (env.cfg.respect_robots && !env.cfg.override_robots) = true
    · cases hcf : env.can_fetch url with
      | error e => exact Or.inl ⟨e, by simp [crawl_page, h, hg, hcf]⟩
      | ok b =>
        cases b with
        | false => exact Or.inr (Or.inl (by simp [crawl_page, h, hg, hcf]))
        | true =>
          cases hf : env.fetch url with
          | error e =>
            exact Or.inr (Or.inr (Or.inl ⟨e, rfl, by simp [crawl_page, h, hg, hcf, hf]⟩))
          | ok page =>
            exact Or.inr (Or.inr (Or.inr ⟨page, rfl, by simp [crawl_page, h, hg, hcf, hf]⟩))
    · cases hf : env.fetch url with
      | error e =>
        exact Or.inr (Or.inr (Or.inl ⟨e, rfl, by simp [crawl_page, h, hg, hf]⟩))
      | ok page =>
        exact Or.inr (Or.inr (Or.inr ⟨page, rfl, by simp [crawl_page, h, hg, hf]⟩))

/-- Any invariant that ignores the queue and is preserved by `crawl_page` under
the loop's budget and depth guards is preserved by the whole crawl loop. -/
theorem crawlLoop_invariant (env : CrawlEnv) (P : CrawlState → Prop)
    (hqueue : ∀ s q, P s → P { s with url_queue := q })
    (hcp : ∀ s url depth, s.results.length < env.cfg.max_pages →
      depth ≤ env.cfg.max_depth → P s → P (crawl_page env s url depth).2)
    (fuel : Nat) (s : CrawlState) (h : P s) : P (crawlLoop env fuel s) := by
  induction fuel generalizing s with
  | zero => simpa [crawlLoop] using h
  | succ n ih =>
    rw [crawlLoop]
    split
    · exact h
    · rename_i url depth rest hq
      split
      · rename_i hlen
        split
        · exact ih _ (hqueue s rest h)
        · rename_i hdep
          have h1 : P (crawl_page env { s with url_queue := rest } url depth).2 :=
            hcp _ url depth hlen (Nat.le_of_not_lt hdep) (hqueue s rest h)
          apply ih
          split
          · split
            · exact hqueue _ _ h1
            · exact h1
          · exact h1
      · exact h

end WebCrawler

namespace WebCrawler

/-- One `crawl_page` step either leaves `results` unchanged or appends exactly
one result carrying the depth the page was crawled at. -/
theorem crawl_page_results (env : CrawlEnv) (s : CrawlState) (url : Str) (depth : Nat) :
    (crawl_page env s url depth).2.results = s.results ∨
      ∃ r, (crawl_page env s url depth).2.results = s.results ++ [r] ∧ r.depth = depth := by
  rcases crawl_page_spec env s url depth with ⟨hmem, hcp⟩ |
    ⟨hnm, ⟨e, hcp⟩ | hcp | ⟨e, hfe, hcp⟩ | ⟨page, hfp, hcp⟩⟩
  · rw [hcp]; exact Or.inl rfl
  · rw [hcp]; exact Or.inl rfl
  · rw [hcp]; exact Or.inl rfl
  · rw [hcp]; exact Or.inl rfl
  · rw [hcp]
    exact Or.inr ⟨mkResult env url depth page, rfl, rfl⟩

end WebCrawler

/-- C4: at every point during a run (arbitrary fuel, from any state within the
budget) and in the final report, the number of collected PageResults is at most
`max_pages`: the loop stops admitting work once `len(results)` reaches the
budget, and one iteration appends at most one result. -/
theorem claim_C4 (env : WebCrawler.CrawlEnv) (fuel : Nat) (s : WebCrawler.CrawlState)
    (h : s.results.length ≤ env.cfg.max_pages) :
    (WebCrawler.crawlLoop env fuel s).results.length ≤ env.cfg.max_pages ∧
      (WebCrawler.detailed_results (WebCrawler.crawlLoop env fuel s)).length ≤
        env.cfg.max_pages := by
  have main := WebCrawler.crawlLoop_invariant env
    (fun st => st.results.length ≤ env.cfg.max_pages)
    (fun s q hP => hP)
    (fun s url depth hlen hdep hP => by
      rcases WebCrawler.crawl_page_results env s url depth with hr | ⟨r, hr, _⟩
      · rw [hr]; exact hP
      · rw [hr]; simp only [List.length_append, List.length_singleton]; omega)
    fuel s h
  exact ⟨main, main⟩

/-- Witness for C4 at a concrete run. -/
theorem claim_C4_witness :
    (WebCrawler.crawlLoop envErrRun 10 (WebCrawler.initState cfgErrRun)).results.length ≤
        envErrRun.cfg.max_pages ∧
      (WebCrawler.detailed_results (WebCrawler.crawlLoop envErrRun 10
          (WebCrawler.initState cfgErrRun))).length ≤ envErrRun.cfg.max_pages :=
  claim_C4 envErrRun 10 (WebCrawler.initState cfgErrRun) (by decide)

/-- C6: no PageResult in the final report has depth greater than `max_depth`: a
dequeued task beyond the bound is dropped without fetching (and, per the loop's
definition, links found at depth `d` are enqueued at `d + 1`). -/
theorem claim_C6 (env : WebCrawler.CrawlEnv) (fuel : Nat) (s : WebCrawler.CrawlState)
    (h : ∀ r ∈ s.results, r.depth ≤ env.cfg.max_depth) :
    ∀ r ∈ WebCrawler.detailed_results (WebCrawler.crawlLoop env fuel s),
      r.depth ≤ env.cfg.max_depth :=
  WebCrawler.crawlLoop_invariant env
    (fun st => ∀ r ∈ st.results, r.depth ≤ env.cfg.max_depth)
    (fun s q hP => hP)
    (fun s url depth hlen hdep hP => by
      rcases WebCrawler.crawl_page_results env s url depth with hr | ⟨r0, hr, hrd⟩
      · rw [hr]; exact hP
      · rw [hr]
        intro r hmem
        rcases List.mem_append.mp hmem with hm | hm
        · exact hP r hm
        · simp only [List.mem_singleton] at hm
          subst hm
          rw [hrd]
          exact hdep)
    fuel s h

/-- Witness for C6 at a concrete run. -/
theorem claim_C6_witness :
    (WebCrawler.detailed_results (WebCrawler.crawlLoop envErrRun 10
        (WebCrawler.initState cfgErrRun))).all
      (fun r => decide (r.depth ≤ envErrRun.cfg.max_depth)) = true := by
  rw [List.all_eq_true]
  intro r hr
  simp only [decide_eq_true_eq]
  exact claim_C6 envErrRun 10 (WebCrawler.initState cfgErrRun) (by decide) r hr

/-- C5 (amended): deduplication is by the exact dequeued URL string — across a
run the fetch oracle is consulted at most once per string (the fetch log never
repeats), and every fetched URL is in the visited set, which is extended at
dequeue time before the fetch. -/
theorem claim_C5_amended (env : WebCrawler.CrawlEnv) (fuel : Nat) (s : WebCrawler.CrawlState)
    (h : s.fetchLog.Nodup ∧ ∀ u ∈ s.fetchLog, u ∈ s.visited_urls) :
    (WebCrawler.crawlLoop env fuel s).fetchLog.Nodup ∧
      ∀ u ∈ (WebCrawler.crawlLoop env fuel s).fetchLog,
        u ∈ (WebCrawler.crawlLoop env fuel s).visited_urls :=
  WebCrawler.crawlLoop_invariant env
    (fun st => st.fetchLog.Nodup ∧ ∀ u ∈ st.fetchLog, u ∈ st.visited_urls)
    (fun s q hP => hP)
    (fun s url depth _ _ hP => by
      rcases WebCrawler.crawl_page_spec env s url depth with ⟨hmem, hcp⟩ |
        ⟨hnm, ⟨e, hcp⟩ | hcp | ⟨e, hfe, hcp⟩ | ⟨page, hfp, hcp⟩⟩
      · rw [hcp]; exact hP
      · rw [hcp]
        exact ⟨hP.1, fun u hu => List.mem_append_left _ (hP.2 u hu)⟩
      · rw [hcp]
        exact ⟨hP.1, fun u hu => List.mem_append_left _ (hP.2 u hu)⟩
      · rw [hcp]
        have hnl : url ∉ s.fetchLog := fun hc => hnm (hP.2 url hc)
        refine ⟨?_, ?_⟩
        · simp [List.nodup_append, hP.1, hnl]
        · intro u hu
          rcases List.mem_append.mp hu with hm | hm
          · exact List.mem_append_left _ (hP.2 u hm)
          · simp only [List.mem_singleton] at hm
            subst hm
            exact List.mem_append_right _ (by simp)
      · rw [hcp]
        have hnl : url ∉ s.fetchLog := fun hc => hnm (hP.2 url hc)
        refine ⟨?_, ?_⟩
        · simp [List.nodup_append, hP.1, hnl]
        · intro u hu
          rcases List.mem_append.mp hu with hm | hm
          · exact List.mem_append_left _ (hP.2 u hm)
          · simp only [List.mem_singleton] at hm
            subst hm
            exact List.mem_append_right _ (by simp))
    fuel s h

/-- Witness for the amended C5 at a concrete run. -/
theorem claim_C5_witness :
    (WebCrawler.crawlLoop envDupRun 10 (WebCrawler.initState cfgDupRun)).fetchLog.Nodup ∧
      ∀ u ∈ (WebCrawler.crawlLoop envDupRun 10 (WebCrawler.initState cfgDupRun)).fetchLog,
        u ∈ (WebCrawler.crawlLoop envDupRun 10 (WebCrawler.initState cfgDupRun)).visited_urls :=
  claim_C5_amended envDupRun 10 (WebCrawler.initState cfgDupRun) (by decide)

/-- C5 (counterexample): a full run in which one normalized URL produces two
fetches.  The seed URL carries a fragment; the page links to its fragment-free
normal form, a different string that is not in the visited set, so both strings
are fetched although they normalize identically. -/
theorem claim_C5_counterexample :
    (WebCrawler.crawl envDupRun 10).fetchLog
        = ["http://h/a.html#f".toList, "http://h/a.html".toList] ∧
      WebCrawler.normalize_url ("http://h/a.html#f".toList) = .ok ("http://h/a.html".toList) ∧
      WebCrawler.normalize_url ("http://h/a.html".toList) = .ok ("http://h/a.html".toList) ∧
      ("http://h/a.html#f".toList : Str) ≠ ("http://h/a.html".toList : Str) := by
  decide

/-- C1: the crawler does build the error PageResult — on a fetch exception
`crawl_page` returns a result carrying the error string and empty artifact
lists, and the run continues past the failure — but the success path is the only
one that appends to `results`, so in a full run the error result never reaches
the report's `detailed_results` and does not count toward the page budget
(contrary to the specification's stated intent). -/
theorem claim_C1_bug :
    WebCrawler.crawl_page envErrRun ⟨[], [], [], []⟩ ("http://h/a.html".toList) 1
        = (some (WebCrawler.errorResult ("http://h/a.html".toList) 1 ("Timeout".toList)),
            ⟨["http://h/a.html".toList], [], [], ["http://h/a.html".toList]⟩) ∧
      envErrRun.fetch ("http://h/a.html".toList) = .error ("Timeout".toList) ∧
      (WebCrawler.crawl envErrRun 10).fetchLog
        = ["http://h/i.html".toList, "http://h/a.html".toList, "http://h/b.html".toList] ∧
      (WebCrawler.detailed_results (WebCrawler.crawl envErrRun 10)).map WebCrawler.CrawlResult.url
        = ["http://h/i.html".toList, "http://h/b.html".toList] ∧
      (∀ r ∈ WebCrawler.detailed_results (WebCrawler.crawl envErrRun 10), r.error = none) := by
  decide

/-- C10: `__init__` fills `focused_extensions` with the seven default
extensions; under them `is_valid_url` returns `False` for every URL whose
lowercased path does not end in one of the seven (extension-less and
directory-style paths included, same-host http(s) or not); and every link the
extractor emits for enqueueing stems from an href that passed `is_valid_url`. -/
theorem claim_C10 :
    WebCrawler.initFocusedExtensions none = WebCrawler.defaultFocusedExtensions ∧
      (∀ cfg : WebCrawler.CrawlConfig,
        cfg.focused_extensions = WebCrawler.defaultFocusedExtensions →
        ∀ url, hasFocusedExtension url = false → WebCrawler.is_valid_url cfg url = false) ∧
      (∀ cfg hrefs u, u ∈ WebCrawler.extract_links cfg hrefs →
        ∃ h, h ∈ hrefs ∧ WebCrawler.is_valid_url cfg h = true ∧
          WebCrawler.normalize_url h = .ok u) := by
  refine ⟨rfl, ?_, ?_⟩
  · intro cfg hfoc url hpath
    unfold WebCrawler.is_valid_url
    cases hp : Urllib.urlparse url with
    | error e => rfl
    | ok p =>
      cases hb : Urllib.urlparse cfg.base_url with
      | error e => rfl
      | ok base =>
        have hany : (WebCrawler.defaultFocusedExtensions.any
            fun ext => Py.endsIn (Py.lower p.path) ext) = false := by
          unfold hasFocusedExtension at hpath
          rw [hp] at hpath
          exact hpath
        rw [hfoc]
        simp_all [WebCrawler.defaultFocusedExtensions]
  · intro cfg hrefs u hu
    induction hrefs with
    | nil => simp [WebCrawler.extract_links] at hu
    | cons a t iht =>
      simp only [WebCrawler.extract_links, List.foldr_cons] at hu
      by_cases hv : WebCrawler.is_valid_url cfg a = true
      · rw [if_pos hv] at hu
        cases hn : WebCrawler.normalize_url a with
        | ok n =>
          rw [hn] at hu
          rcases List.mem_cons.mp hu with hm | hm
          · exact ⟨a, List.mem_cons_self a t, hv, by rw [hn, hm]⟩
          · obtain ⟨h0, hh1, hh2, hh3⟩ := iht hm
            exact ⟨h0, List.mem_cons_of_mem a hh1, hh2, hh3⟩
        | error e =>
          rw [hn] at hu
          obtain ⟨h0, hh1, hh2, hh3⟩ := iht hu
          exact ⟨h0, List.mem_cons_of_mem a hh1, hh2, hh3⟩
      · rw [if_neg hv] at hu
        obtain ⟨h0, hh1, hh2, hh3⟩ := iht hu
        exact ⟨h0, List.mem_cons_of_mem a hh1, hh2, hh3⟩

/-- Witness for C10: under the default extension sets the same-host,
extension-less path `http://host/a` is rejected by the admission filter. -/
theorem claim_C10_witness :
    WebCrawler.is_valid_url cfgHostDefaults ("http://host/a".toList) = false :=
  claim_C10.2.1 cfgHostDefaults rfl ("http://host/a".toList) (by decide)

namespace WebCrawler

/-- The `api` bucket changes exactly under the first arm's condition. -/
theorem groupStep_api (g : EndpointGroups) (e : Str) :
    (groupStep g e).api = if isApiEndpoint e then g.api ++ [e] else g.api := by
  unfold groupStep isApiEndpoint
  cases h1 : Py.hasSub ("/api/".toList) e <;>
    cases h2 : Py.hasSub ("/rest/".toList) e <;>
      cases h3 : (Py.hasSub ("/v".toList) e && e.any Py.isDigitChar) <;>
        simp [h1, h2, h3]

/-- The `rest` bucket changes exactly under the second arm's condition. -/
theorem groupStep_rest (g : EndpointGroups) (e : Str) :
    (groupStep g e).rest = if isRestEndpoint e then g.rest ++ [e] else g.rest := by
  unfold groupStep isRestEndpoint isApiEndpoint
  cases h1 : Py.hasSub ("/api/".toList) e <;>
    cases h2 : Py.hasSub ("/rest/".toList) e <;>
      cases h3 : (Py.hasSub ("/v".toList) e && e.any Py.isDigitChar) <;>
        simp [h1, h2, h3]

/-- The `versioned` bucket changes exactly under the third arm's condition. -/
theorem groupStep_versioned (g : EndpointGroups) (e : Str) :
    (groupStep g e).versioned =
      if isVersionedEndpoint e then g.versioned ++ [e] else g.versioned := by
  unfold groupStep isVersionedEndpoint isApiEndpoint
  cases h1 : Py.hasSub ("/api/".toList) e <;>
    cases h2 : Py.hasSub ("/rest/".toList) e <;>
      cases h3 : (Py.hasSub ("/v".toList) e && e.any Py.isDigitChar) <;>
        simp [h1, h2, h3]

/-- The `other` bucket changes exactly under the fallback condition. -/
theorem groupStep_other (g : EndpointGroups) (e : Str) :
    (groupStep g e).other = if isOtherEndpoint e then g.other ++ [e] else g.other := by
  unfold groupStep isOtherEndpoint isApiEndpoint
  cases h1 : Py.hasSub ("/api/".toList) e <;>
    cases h2 : Py.hasSub ("/rest/".toList) e <;>
      cases h3 : (Py.hasSub ("/v".toList) e && e.any Py.isDigitChar) <;>
        simp [h1, h2, h3]

/-- The fold underlying `_group_endpoints`, `api` projection. -/
theorem group_fold_api (es : List Str) (g : EndpointGroups) :
    (es.foldl groupStep g).api = g.api ++ es.filter isApiEndpoint := by
  induction es generalizing g with
  | nil => simp
  | cons a t ih =>
    rw [List.foldl_cons, ih, List.filter_cons]
    by_cases h : isApiEndpoint a <;> simp [groupStep_api, h]

/-- The fold underlying `_group_endpoints`, `rest` projection. -/
theorem group_fold_rest (es : List Str) (g : EndpointGroups) :
    (es.foldl groupStep g).rest = g.rest ++ es.filter isRestEndpoint := by
  induction es generalizing g with
  | nil => simp
  | cons a t ih =>
    rw [List.foldl_cons, ih, List.filter_cons]
    by_cases h : isRestEndpoint a <;> simp [groupStep_rest, h]

/-- The fold underlying `_group_endpoints`, `versioned` projection. -/
theorem group_fold_versioned (es : List Str) (g : EndpointGroups) :
    (es.foldl groupStep g).versioned = g.versioned ++ es.filter isVersionedEndpoint := by
  induction es generalizing g with
  | nil => simp
  | cons a t ih =>
    rw [List.foldl_cons, ih, List.filter_cons]
    by_cases h : isVersionedEndpoint a <;> simp [groupStep_versioned, h]

/-- The fold underlying `_group_endpoints`, `other` projection. -/
theorem group_fold_other (es : List Str) (g : EndpointGroups) :
    (es.foldl groupStep g).other = g.other ++ es.filter isOtherEndpoint := by
  induction es generalizing g with
  | nil => simp
  | cons a t ih =>
    rw [List.foldl_cons, ih, List.filter_cons]
    by_cases h : isOtherEndpoint a <;> simp [groupStep_other, h]

/-- Each endpoint lands in exactly one bucket: the bucket sizes sum to the
input size. -/
theorem group_fold_length (es : List Str) (g : EndpointGroups) :
    (es.foldl groupStep g).api.length + (es.foldl groupStep g).rest.length +
        (es.foldl groupStep g).versioned.length + (es.foldl groupStep g).other.length
      = g.api.length + g.rest.length + g.versioned.length + g.other.length + es.length := by
  induction es generalizing g with
  | nil => simp
  | cons a t ih =>
    rw [List.foldl_cons, ih]
    unfold groupStep
    cases h1 : Py.hasSub ("/api/".toList) a <;>
      cases h2 : Py.hasSub ("/rest/".toList) a <;>
        cases h3 : Py.hasSub ("/v".toList) a <;>
          cases h4 : a.any Py.isDigitChar <;>
            (simp [h1, h2, h3, h4]; omega)

end WebCrawler

/-- C8 (amended): `_group_endpoints` places every endpoint in exactly one bucket
with check-order precedence `api > rest > versioned > other` (bucket sizes sum
to the input size), but its `versioned` test is "contains `/v` somewhere AND
contains a digit anywhere", not "`/v` immediately followed by a digit". -/
theorem claim_C8_amended (es : List Str) :
    (WebCrawler._group_endpoints es).api = es.filter WebCrawler.isApiEndpoint ∧
      (WebCrawler._group_endpoints es).rest = es.filter WebCrawler.isRestEndpoint ∧
      (WebCrawler._group_endpoints es).versioned = es.filter WebCrawler.isVersionedEndpoint ∧
      (WebCrawler._group_endpoints es).other = es.filter WebCrawler.isOtherEndpoint ∧
      (WebCrawler._group_endpoints es).api.length + (WebCrawler._group_endpoints es).rest.length +
          (WebCrawler._group_endpoints es).versioned.length +
          (WebCrawler._group_endpoints es).other.length = es.length := by
  unfold WebCrawler._group_endpoints
  refine ⟨?_, ?_, ?_, ?_, ?_⟩
  · simpa using WebCrawler.group_fold_api es ⟨[], [], [], []⟩
  · simpa using WebCrawler.group_fold_rest es ⟨[], [], [], []⟩
  · simpa using WebCrawler.group_fold_versioned es ⟨[], [], [], []⟩
  · simpa using WebCrawler.group_fold_other es ⟨[], [], [], []⟩
  · simpa using WebCrawler.group_fold_length es ⟨[], [], [], []⟩

/-- C8 (counterexample): `/view/page1` has no `/v` followed by a digit, yet the
code places it in the `versioned` bucket (it contains `/v` in `/view` and the
digit `1` elsewhere). -/
theorem claim_C8_counterexample :
    (WebCrawler._group_endpoints [("/view/page1".toList)]).versioned
        = [("/view/page1".toList)] ∧
      WebCrawler.versionedSpec ("/view/page1".toList) = false := by
  decide

namespace Py

/-- A successful `splitOnce` decomposes its input around the first separator. -/
theorem splitOnce_eq_some {sep : Char} {s : Str} {p : Str × Str}
    (h : splitOnce sep s = some p) : s = p.1 ++ sep :: p.2 ∧ sep ∉ p.1 := by
  induction s generalizing p with
  | nil => simp [splitOnce] at h
  | cons c rest ih =>
    rw [splitOnce] at h
    by_cases hc : c = sep
    · rw [if_pos hc] at h
      simp only [Option.some_inj] at h
      subst h
      subst hc
      simp
    · rw [if_neg hc] at h
      cases hs : splitOnce sep rest with
      | none => rw [hs] at h; simp at h
      | some q =>
        rw [hs] at h
        simp only [Option.map_some', Option.some_inj] at h
        subst h
        obtain ⟨hr, hnin⟩ := ih hs
        constructor
        · simpa using congrArg (c :: ·) hr
        · simp only [List.mem_cons, not_or]
          exact ⟨fun e => hc e.symm, hnin⟩

/-- `splitOnce` finds the first separator occurrence. -/
theorem splitOnce_append (sep : Char) (a b : Str) (h : sep ∉ a) :
    splitOnce sep (a ++ sep :: b) = some (a, b) := by
  induction a with
  | nil => simp [splitOnce]
  | cons c t ih =>
    have hc : ¬c = sep := fun e => h (e ▸ List.mem_cons_self c t)
    simp [splitOnce, hc, ih (fun hm => h (List.mem_cons_of_mem c hm))]

/-- `splitOnce` misses when the separator is absent. -/
theorem splitOnce_of_not_mem (sep : Char) (s : Str) (h : sep ∉ s) :
    splitOnce sep s = none := by
  induction s with
  | nil => rfl
  | cons c t ih =>
    have hc : ¬c = sep := fun e => h (e ▸ List.mem_cons_self c t)
    simp [splitOnce, hc, ih (fun hm => h (List.mem_cons_of_mem c hm))]

/-- A string begins with each of its own prefixes. -/
theorem beginsWith_append_self (p s : Str) : beginsWith p (p ++ s) = true := by
  induction p with
  | nil => rfl
  | cons c t ih => simp [beginsWith, ih]

/-- Dropping a prefix cannot remove a final element that the predicate keeps. -/
theorem dropWhile_append_last (p : Char → Bool) (l : Str) (c : Char) (hc : p c = false) :
    ∃ m, List.dropWhile p (l ++ [c]) = m ++ [c] := by
  induction l with
  | nil => exact ⟨[], by simp [List.dropWhile, hc]⟩
  | cons x xs ih =>
    by_cases hx : p x = true
    · obtain ⟨m, hm⟩ := ih
      exact ⟨m, by simp [List.dropWhile, hx, hm]⟩
    · exact ⟨x :: xs, by simp [List.dropWhile, hx]⟩

/-- `strip` keeps a non-space head character. -/
theorem strip_cons_of_not_space {c : Char} (hc : isSpaceChar c = false) (t : Str) :
    ∃ r, strip (c :: t) = c :: r := by
  unfold strip
  rw [List.dropWhile_cons, if_neg (by simp [hc])]
  obtain ⟨m, hm⟩ := dropWhile_append_last isSpaceChar t.reverse c hc
  refine ⟨m.reverse, ?_⟩
  rw [show (c :: t).reverse = t.reverse ++ [c] by simp, hm]
  simp

end Py

/-- C3 (amended): the utils parser scopes directives — under a non-wildcard
`User-agent` no line changes the recorded `Disallow`/`Allow` lists, and under
`*`/no agent a `Disallow:` line appends its value — while the crawler's
`RobotsTxtParser` records every `Disallow:` line into its set regardless of any
`User-agent:` scoping. -/
theorem claim_C3_amended :
    (∀ (st : Utils.RobotsData) (line ua : Str), st.current = some ua → ua ≠ ("*".toList) →
        (Utils.parseRobotsLine st line).disallowed = st.disallowed ∧
          (Utils.parseRobotsLine st line).allowed = st.allowed) ∧
      (∀ (st : Utils.RobotsData) (line d v : Str),
        (st.current = some ("*".toList) ∨ st.current = none) →
        Py.strip line = line →
        Py.splitOnce ':' line = some (d, v) →
        Py.lower (Py.strip d) = "disallow".toList →
        (Utils.parseRobotsLine st line).disallowed = st.disallowed ++ [Py.strip v]) ∧
      (∀ (st : RobotsTxtParser.RobotsSets) (v : Str),
        Py.strip ("Disallow:".toList ++ v) = "Disallow:".toList ++ v →
        (RobotsTxtParser.parseLine st ("Disallow:".toList ++ v)).disallowed_paths
          = RobotsTxtParser.setAdd st.disallowed_paths (Py.strip v)) := by
  refine ⟨?_, ?_, ?_⟩
  · intro st line ua hcur hne
    unfold Utils.parseRobotsLine
    repeat' split <;> first | rfl | (constructor <;> rfl) | simp_all | skip
  · intro st line d v hcur hstrip hsplit hlow
    obtain ⟨hline, hnin⟩ := Py.splitOnce_eq_some hsplit
    have hne : line ≠ [] := by rw [hline]; simp
    have hhash : Py.beginsWith ['#'] line = false := by
      cases hd : d with
      | nil =>
        rw [hline, hd]
        simp [Py.beginsWith]
      | cons c d' =>
        rw [hline, hd]
        by_cases hc : c = '#'
        · exfalso
          rw [hd] at hlow
          obtain ⟨r, hr⟩ := Py.strip_cons_of_not_space (c := c) (by rw [hc]; decide) d'
          rw [hr] at hlow
          rw [show Py.lower (c :: r) = Py.lowerChar c :: Py.lower r from rfl] at hlow
          rw [hc] at hlow
          have : Py.lowerChar '#' = 'd' := List.head_eq_of_cons_eq hlow
          exact absurd this (by decide)
        · simp [Py.beginsWith, show ('#' : Char) ≠ c from fun e => hc e.symm]
    simp only [Utils.parseRobotsLine]
    rw [hstrip, if_neg hne, if_neg (by simp [hhash]), hsplit]
    simp only [hlow]
    rw [if_pos trivial, if_pos hcur, if_neg (by decide)]
  · intro st v hstrip
    have hsplit : Py.splitOnce ':' ("Disallow:".toList ++ v) = some ("Disallow".toList, v) := by
      rw [show ("Disallow:".toList ++ v) = "Disallow".toList ++ ':' :: v from rfl]
      exact Py.splitOnce_append ':' ("Disallow".toList) v (by decide)
    simp only [RobotsTxtParser.parseLine]
    rw [hstrip, if_pos (Py.beginsWith_append_self ("Disallow:".toList) v), hsplit]

/-- C3 (counterexample): a `Disallow` inside a `User-agent: Googlebot` block is
ignored by the utils parser but recorded by the crawler's `RobotsTxtParser`,
contradicting the claim that both parsers scope directives to the wildcard
agent. -/
theorem claim_C3_counterexample :
    (Utils.parse_robots_txt_content
        ("User-agent: Googlebot\nDisallow: /private".toList)).disallowed = [] ∧
      (RobotsTxtParser.parse_robots_txt
        ("User-agent: Googlebot\nDisallow: /private".toList)).disallowed_paths
        = ["/private".toList] := by
  decide

/-- Witness for the amended C3 at concrete states and lines. -/
theorem claim_C3_witness :
    ((Utils.parseRobotsLine
          ⟨some ("googlebot".toList), ["/x".toList], ["/y".toList], ["googlebot".toList]⟩
          ("Disallow: /private".toList)).disallowed = ["/x".toList] ∧
        (Utils.parseRobotsLine
          ⟨some ("googlebot".toList), ["/x".toList], ["/y".toList], ["googlebot".toList]⟩
          ("Disallow: /private".toList)).allowed = ["/y".toList]) ∧
      (Utils.parseRobotsLine ⟨some ("*".toList), ["/x".toList], [], []⟩
          ("Disallow: /private".toList)).disallowed
        = ["/x".toList] ++ [Py.strip (" /private".toList)] ∧
      (RobotsTxtParser.parseLine ⟨["/x".toList], []⟩
          ("Disallow:".toList ++ " /secret".toList)).disallowed_paths
        = RobotsTxtParser.setAdd ["/x".toList] (Py.strip (" /secret".toList)) := by
  refine ⟨?_, ?_, ?_⟩
  · exact claim_C3_amended.1
      ⟨some ("googlebot".toList), ["/x".toList], ["/y".toList], ["googlebot".toList]⟩
      ("Disallow: /private".toList) ("googlebot".toList) rfl (by decide)
  · exact claim_C3_amended.2.1 ⟨some ("*".toList), ["/x".toList], [], []⟩
      ("Disallow: /private".toList) ("Disallow".toList) (" /private".toList)
      (Or.inl rfl) (by decide) (by decide) (by decide)
  · exact claim_C3_amended.2.2 ⟨["/x".toList], []⟩ (" /secret".toList) (by decide)

/-- C7 (amended): the standalone utils normalizer is total and fails open —
whenever `urlparse` raises, the `except` returns the input unchanged — while the
crawler's own normalizer has no handler and propagates the `ValueError` that an
unbalanced-bracket netloc raises. -/
theorem claim_C7_amended :
    (∀ (u : Str) (e : Unit), Urllib.urlparse u = .error e → Utils.normalize_url u = u) ∧
      WebCrawler.normalize_url ("http://[::1".toList) = .error () := by
  constructor
  · intro u e he
    unfold Utils.normalize_url
    rw [he]
  · decide

/-- C7 (counterexample): `WebCrawler.normalize_url` raises (does not fail open)
on the malformed URL `http://[::1`, contradicting the claim that both
normalizers never raise and pass malformed input through unchanged. -/
theorem claim_C7_counterexample :
    WebCrawler.normalize_url ("http://[::1".toList) = .error () ∧
      Utils.normalize_url ("http://[::1".toList) = ("http://[::1".toList) := by
  decide

/-- Witness for the amended C7 at the concrete malformed URL. -/
theorem claim_C7_witness :
    Utils.normalize_url ("http://[::1".toList) = ("http://[::1".toList) :=
  claim_C7_amended.1 ("http://[::1".toList) () (by decide)

namespace Py

/-- Characters with equal code points are equal. -/
theorem char_toNat_inj {c d : Char} (h : c.toNat = d.toNat) : c = d :=
  Char.ext (UInt32.toNat.inj h)

/-- Code point of `Char.ofNat` at a valid code point. -/
theorem toNat_ofNat_valid {n : Nat} (h : n.isValidChar) : (Char.ofNat n).toNat = n := by
  unfold Char.ofNat
  rw [dif_pos h]
  rfl

/-- Code point of `Char.ofNat` below the surrogate range. -/
theorem toNat_ofNat_small {n : Nat} (h : n < 0xD800) : (Char.ofNat n).toNat = n :=
  toNat_ofNat_valid (Or.inl h)

/-- Every character's code point is a valid scalar value. -/
theorem char_toNat_valid (c : Char) : c.toNat.isValidChar := c.valid

/-- UTF-8 bytes are bytes whenever the code point is in range. -/
theorem utf8EncodeChar_lt_256 {n : Nat} (hn : n < 0x110000) :
    ∀ b ∈ utf8EncodeChar n, b < 256 := by
  intro b hb
  unfold utf8EncodeChar at hb
  split at hb
  · simp at hb; omega
  · split at hb
    · simp at hb; rcases hb with h | h <;> omega
    · split at hb
      · simp at hb; rcases hb with h | h | h <;> omega
      · simp at hb; rcases hb with h | h | h | h <;> omega

/-- Round trip of the UTF-8 model: decoding an encoded character placed in front
of any byte tail yields the character followed by the decoded tail. -/
theorem utf8Decode_encode (c : Char) (rest : List Nat) :
    utf8Decode (utf8EncodeChar c.toNat ++ rest) = c :: utf8Decode rest := by
  have hv : c.toNat < 0xD800 ∨ 0xDFFF < c.toNat ∧ c.toNat < 0x110000 := char_toNat_valid c
  unfold utf8EncodeChar
  by_cases h1 : c.toNat < 0x80
  · rw [if_pos h1]
    simp only [List.cons_append, List.nil_append]
    rw [utf8Decode.eq_def]
    dsimp only
    rw [if_pos h1, Char.ofNat_toNat]
  · rw [if_neg h1]
    by_cases h2 : c.toNat < 0x800
    · rw [if_pos h2]
      simp only [List.cons_append, List.nil_append]
      rw [utf8Decode.eq_def]
      dsimp only
      rw [if_neg (by omega), if_neg (by omega), if_pos (by omega),
        if_pos (show isCont (0x80 + c.toNat % 64) = true by simp [isCont]; omega)]
      rw [show (0xC0 + c.toNat / 64 - 0xC0) * 64 + (0x80 + c.toNat % 64 - 0x80) = c.toNat
        from by omega, Char.ofNat_toNat]
    · rw [if_neg h2]
      by_cases h3 : c.toNat < 0x10000
      · rw [if_pos h3]
        simp only [List.cons_append, List.nil_append]
        rw [utf8Decode.eq_def]
        dsimp only
        rw [if_neg (by omega), if_neg (by omega), if_neg (by omega), if_pos (by omega),
          if_pos (show cont3 (0xE0 + c.toNat / 4096) (0x80 + c.toNat / 64 % 64) = true
            from by simp [cont3, isCont]; omega),
          if_pos (show isCont (0x80 + c.toNat % 64) = true by simp [isCont]; omega)]
        rw [show (0xE0 + c.toNat / 4096 - 0xE0) * 4096 + (0x80 + c.toNat / 64 % 64 - 0x80) * 64 +
            (0x80 + c.toNat % 64 - 0x80) = c.toNat from by omega, Char.ofNat_toNat]
      · rw [if_neg h3]
        simp only [List.cons_append, List.nil_append]
        rw [utf8Decode.eq_def]
        dsimp only
        rw [if_neg (by omega), if_neg (by omega), if_neg (by omega), if_neg (by omega),
          if_pos (by omega),
          if_pos (show cont4 (0xF0 + c.toNat / 262144) (0x80 + c.toNat / 4096 % 64) = true
            from by simp [cont4, isCont]; omega),
          if_pos (show isCont (0x80 + c.toNat / 64 % 64) = true by simp [isCont]; omega),
          if_pos (show isCont (0x80 + c.toNat % 64) = true by simp [isCont]; omega)]
        rw [show (0xF0 + c.toNat / 262144 - 0xF0) * 262144 + (0x80 + c.toNat / 4096 % 64 - 0x80) *
            4096 + (0x80 + c.toNat / 64 % 64 - 0x80) * 64 + (0x80 + c.toNat % 64 - 0x80) = c.toNat
          from by omega, Char.ofNat_toNat]

end Py

namespace Py

/-- `hexVal` inverts `hexDigit` on byte nibbles. -/
theorem hexVal_hexDigit {n : Nat} (h : n < 16) : hexVal (hexDigit n) = some n := by
  unfold hexDigit hexVal
  by_cases h10 : n < 10
  · rw [if_pos h10]
    simp only [toNat_ofNat_small (show 48 + n < 55296 by omega)]
    rw [if_pos (by omega)]
    congr 1
    omega
  · rw [if_neg h10]
    simp only [toNat_ofNat_small (show 55 + n < 55296 by omega)]
    rw [if_neg (by omega), if_pos (by omega)]
    congr 1
    omega

/-- Tokenizing a percent-encoded byte yields that byte. -/
theorem pctTokenize_pctByte {b : Nat} (hb : b < 256) (rest : Str) :
    pctTokenize (pctByte b ++ rest) = .inr b :: pctTokenize rest := by
  show pctTokenize ('%' :: hexDigit (b / 16) :: hexDigit (b % 16) :: rest) = _
  rw [pctTokenize.eq_def]
  simp only [hexVal_hexDigit (show b / 16 < 16 by omega),
    hexVal_hexDigit (show b % 16 < 16 by omega)]
  rw [show 16 * (b / 16) + b % 16 = b from by omega]

/-- Tokenizing a non-`%` character yields that literal character. -/
theorem pctTokenize_cons {c : Char} (hc : c ≠ '%') (rest : Str) :
    pctTokenize (c :: rest) = .inl c :: pctTokenize rest := by
  rw [pctTokenize.eq_def]
  split <;> simp_all

/-- Unfolding equation of `pctDecodeAux` at the empty stream. -/
theorem pctDecodeAux_nil (acc : List Nat) :
    pctDecodeAux [] acc = utf8Decode acc.reverse := rfl

/-- Unfolding equation of `pctDecodeAux` at a literal token. -/
theorem pctDecodeAux_inl (c : Char) (T : List (Sum Char Nat)) (acc : List Nat) :
    pctDecodeAux (.inl c :: T) acc = utf8Decode acc.reverse ++ c :: pctDecodeAux T [] := rfl

/-- Unfolding equation of `pctDecodeAux` at a byte token. -/
theorem pctDecodeAux_inr (b : Nat) (T : List (Sum Char Nat)) (acc : List Nat) :
    pctDecodeAux (.inr b :: T) acc = pctDecodeAux T (b :: acc) := rfl

/-- A whole run of byte tokens is shifted into the accumulator. -/
theorem pctDecodeAux_inr_chunk (L : List Nat) (T : List (Sum Char Nat)) (acc : List Nat) :
    pctDecodeAux (L.map Sum.inr ++ T) acc = pctDecodeAux T (L.reverse ++ acc) := by
  induction L generalizing acc with
  | nil => simp
  | cons b L' ih => simp [pctDecodeAux_inr, ih]

/-- Decoding a flat list of encoded characters recovers them. -/
theorem utf8Decode_flat (γ : Str) (rest : List Nat) :
    utf8Decode ((γ.map fun c => utf8EncodeChar c.toNat).flatten ++ rest)
      = γ ++ utf8Decode rest := by
  induction γ with
  | nil => simp
  | cons c γ' ih =>
    simp only [List.map_cons, List.flatten_cons, List.append_assoc]
    rw [utf8Decode_encode, ih]
    simp

/-- Unfolding equation of `quotePlus` at a cons. -/
theorem quotePlus_cons (c : Char) (s : Str) :
    quotePlus (c :: s) =
      if alwaysSafe c then c :: quotePlus s
      else if c = ' ' then '+' :: quotePlus s
      else (utf8EncodeChar c.toNat).foldr (fun b a => pctByte b ++ a) (quotePlus s) := rfl

/-- The byte fold of `quotePlus` is a flat map of `pctByte`. -/
theorem foldr_pctByte (L : List Nat) (X : Str) :
    L.foldr (fun b a => pctByte b ++ a) X = (L.map pctByte).flatten ++ X := by
  induction L with
  | nil => simp
  | cons b L' ih => simp [ih]

/-- Safe characters are none of the separator characters. -/
theorem alwaysSafe_ne {c : Char} (h : alwaysSafe c = true) :
    c ≠ '+' ∧ c ≠ '%' ∧ c ≠ '&' ∧ c ≠ '=' ∧ c ≠ '#' ∧ c ≠ '?' := by
  refine ⟨?_, ?_, ?_, ?_, ?_, ?_⟩ <;> (intro e; subst e; revert h; decide)

/-- Hex digits are none of the separator characters. -/
theorem hexDigit_ne {n : Nat} (h : n < 16) :
    hexDigit n ≠ '+' ∧ hexDigit n ≠ '&' ∧ hexDigit n ≠ '=' ∧ hexDigit n ≠ '#' ∧
      hexDigit n ≠ '?' ∧ hexDigit n ≠ '%' := by
  interval_cases n <;> decide

/-- `plusToSpace` distributes over append. -/
theorem plusToSpace_append (a b : Str) :
    plusToSpace (a ++ b) = plusToSpace a ++ plusToSpace b := by
  simp [plusToSpace]

/-- `plusToSpace` fixes a percent-encoded byte. -/
theorem plusToSpace_pctByte {b : Nat} (hb : b < 256) : plusToSpace (pctByte b) = pctByte b := by
  unfold plusToSpace pctByte
  simp [(hexDigit_ne (show b / 16 < 16 by omega)).1, (hexDigit_ne (show b % 16 < 16 by omega)).1]

/-- `plusToSpace` fixes a flat list of percent-encoded bytes. -/
theorem plusToSpace_flat_pctBytes (L : List Nat) (h : ∀ b ∈ L, b < 256) :
    plusToSpace ((L.map pctByte).flatten) = (L.map pctByte).flatten := by
  induction L with
  | nil => rfl
  | cons b L' ih =>
    simp only [List.map_cons, List.flatten_cons]
    rw [plusToSpace_append, plusToSpace_pctByte (h b (by simp)),
      ih (fun x hx => h x (by simp [hx]))]

/-- Tokenizing a flat list of percent-encoded bytes yields the byte tokens. -/
theorem pctTokenize_pctBytes (L : List Nat) (h : ∀ b ∈ L, b < 256) (X : Str) :
    pctTokenize ((L.map pctByte).flatten ++ X) = L.map Sum.inr ++ pctTokenize X := by
  induction L with
  | nil => simp
  | cons b L' ih =>
    simp only [List.map_cons, List.flatten_cons, List.append_assoc]
    rw [pctTokenize_pctByte (h b (by simp)), ih (fun x hx => h x (by simp [hx]))]
    rfl

/-- Main induction for the quoting round trip, with a decoded prefix `γ` pending
in the accumulator. -/
theorem unquote_quote_aux (s γ : Str) :
    pctDecodeAux (pctTokenize (plusToSpace (quotePlus s)))
      ((γ.map fun c => utf8EncodeChar c.toNat).flatten).reverse = γ ++ s := by
  induction s generalizing γ with
  | nil =>
    rw [show plusToSpace (quotePlus []) = [] from rfl]
    rw [show pctTokenize [] = [] from rfl]
    rw [pctDecodeAux_nil, List.reverse_reverse]
    simpa [show utf8Decode ([] : List Nat) = [] from rfl] using utf8Decode_flat γ []
  | cons c s' ih =>
    rw [quotePlus_cons]
    by_cases hs : alwaysSafe c = true
    · rw [if_pos hs]
      obtain ⟨hplus, hpct, -⟩ := alwaysSafe_ne hs
      rw [show plusToSpace (c :: quotePlus s') = c :: plusToSpace (quotePlus s') from by
        simp [plusToSpace, hplus]]
      rw [pctTokenize_cons hpct, pctDecodeAux_inl, List.reverse_reverse]
      rw [show pctDecodeAux (pctTokenize (plusToSpace (quotePlus s'))) [] = s' from by
        simpa using ih []]
      have hflat := utf8Decode_flat γ []
      simp only [show utf8Decode ([] : List Nat) = [] from rfl, List.append_nil] at hflat
      rw [hflat]
    · rw [if_neg hs]
      by_cases hsp : c = ' '
      · subst hsp
        rw [if_pos rfl]
        rw [show plusToSpace ('+' :: quotePlus s') = ' ' :: plusToSpace (quotePlus s') from by
          simp [plusToSpace]]
        rw [pctTokenize_cons (by decide), pctDecodeAux_inl, List.reverse_reverse]
        rw [show pctDecodeAux (pctTokenize (plusToSpace (quotePlus s'))) [] = s' from by
          simpa using ih []]
        have hflat := utf8Decode_flat γ []
        simp only [show utf8Decode ([] : List Nat) = [] from rfl, List.append_nil] at hflat
        rw [hflat]
      · rw [if_neg hsp]
        have hlt : c.toNat < 0x110000 := by
          rcases char_toNat_valid c with h | h <;> omega
        have hbytes : ∀ b ∈ utf8EncodeChar c.toNat, b < 256 := utf8EncodeChar_lt_256 hlt
        rw [foldr_pctByte, plusToSpace_append, plusToSpace_flat_pctBytes _ hbytes,
          pctTokenize_pctBytes _ hbytes, pctDecodeAux_inr_chunk]
        rw [show (utf8EncodeChar c.toNat).reverse ++
              ((γ.map fun x => utf8EncodeChar x.toNat).flatten).reverse
            = (((γ ++ [c]).map fun x => utf8EncodeChar x.toNat).flatten).reverse from by simp]
        rw [ih (γ ++ [c])]
        simp

/-- The quoting round trip: `parse_qsl`'s `unquote(x.replace('+', ' '))` inverts
`urlencode`'s `quote_plus`. -/
theorem unquote_plusToSpace_quotePlus (s : Str) : unquote (plusToSpace (quotePlus s)) = s := by
  have := unquote_quote_aux s []
  simpa [unquote] using this

end Py

namespace Py

/-- Characters emitted by `quotePlus` are never query/fragment separators. -/
theorem quotePlus_not_mem (s : Str) :
    ∀ x ∈ quotePlus s, x ≠ '&' ∧ x ≠ '=' ∧ x ≠ '#' ∧ x ≠ '?' := by
  induction s with
  | nil => simp [quotePlus]
  | cons c s' ih =>
    intro x hx
    rw [quotePlus_cons] at hx
    by_cases hs : alwaysSafe c = true
    · rw [if_pos hs] at hx
      rcases List.mem_cons.mp hx with rfl | hx'
      · obtain ⟨-, -, h3, h4, h5, h6⟩ := alwaysSafe_ne hs
        exact ⟨h3, h4, h5, h6⟩
      · exact ih x hx'
    · rw [if_neg hs] at hx
      by_cases hsp : c = ' '
      · rw [if_pos hsp] at hx
        rcases List.mem_cons.mp hx with rfl | hx'
        · exact ⟨by decide, by decide, by decide, by decide⟩
        · exact ih x hx'
      · rw [if_neg hsp] at hx
        rw [foldr_pctByte] at hx
        rcases List.mem_append.mp hx with hx' | hx'
        · obtain ⟨l, hl, hxl⟩ := List.mem_flatten.mp hx'
          obtain ⟨b, hb, rfl⟩ := List.mem_map.mp hl
          have hlt : c.toNat < 0x110000 := by
            rcases char_toNat_valid c with h | h <;> omega
          have hb256 : b < 256 := utf8EncodeChar_lt_256 hlt b hb
          simp only [pctByte, List.mem_cons, List.not_mem_nil, or_false] at hxl
          rcases hxl with rfl | rfl | rfl
          · exact ⟨by decide, by decide, by decide, by decide⟩
          · have hd := hexDigit_ne (show b / 16 < 16 by omega)
            exact ⟨hd.2.1, hd.2.2.1, hd.2.2.2.1, hd.2.2.2.2.1⟩
          · have hd := hexDigit_ne (show b % 16 < 16 by omega)
            exact ⟨hd.2.1, hd.2.2.1, hd.2.2.2.1, hd.2.2.2.2.1⟩
        · exact ih x hx'

/-- The UTF-8 encoding of a code point is never empty. -/
theorem utf8EncodeChar_ne_nil (n : Nat) : utf8EncodeChar n ≠ [] := by
  unfold utf8EncodeChar
  repeat' split
  all_goals exact List.cons_ne_nil _ _

/-- `quotePlus` of a non-empty string is non-empty. -/
theorem quotePlus_ne_nil {s : Str} (h : s ≠ []) : quotePlus s ≠ [] := by
  cases s with
  | nil => exact absurd rfl h
  | cons c s' =>
    rw [quotePlus_cons]
    by_cases hs : alwaysSafe c = true
    · simp [hs]
    · rw [if_neg hs]
      by_cases hsp : c = ' '
      · simp [hsp]
      · rw [if_neg hsp, foldr_pctByte]
        cases hL : utf8EncodeChar c.toNat with
        | nil => exact absurd hL (utf8EncodeChar_ne_nil c.toNat)
        | cons b L' => simp [pctByte]

/-- `splitChar` without the separator present returns the single piece. -/
theorem splitChar_of_not_mem (sep : Char) (s : Str) (h : sep ∉ s) :
    splitChar sep s = [s] := by
  induction s with
  | nil => rfl
  | cons c t ih =>
    have hc : ¬c = sep := fun e => h (e ▸ List.mem_cons_self c t)
    simp [splitChar, hc, ih (fun hm => h (List.mem_cons_of_mem c hm))]

/-- `splitChar` splits off the piece before the first separator. -/
theorem splitChar_append (sep : Char) (a t : Str) (h : sep ∉ a) :
    splitChar sep (a ++ sep :: t) = a :: splitChar sep t := by
  induction a with
  | nil => simp [splitChar]
  | cons c a' ih =>
    have hc : ¬c = sep := fun e => h (e ▸ List.mem_cons_self c a')
    have h2 := ih (fun hm => h (List.mem_cons_of_mem c hm))
    simp only [List.cons_append, splitChar, List.append_eq, if_neg hc, h2]

/-- `splitChar` inverts `joinAmp` on separator-free pieces. -/
theorem splitChar_joinAmp (parts : List Str) (hne : parts ≠ [])
    (h : ∀ p ∈ parts, '&' ∉ p) : Py.splitChar '&' (Urllib.joinAmp parts) = parts := by
  induction parts with
  | nil => exact absurd rfl hne
  | cons x rest ih =>
    cases rest with
    | nil => exact splitChar_of_not_mem '&' x (h x (by simp))
    | cons y rest' =>
      rw [show Urllib.joinAmp (x :: y :: rest') = x ++ '&' :: Urllib.joinAmp (y :: rest')
        from rfl]
      rw [splitChar_append '&' x _ (h x (by simp))]
      rw [ih (by simp) (fun p hp => h p (List.mem_cons_of_mem x hp))]

end Py

namespace Urllib

open Py

/-- The field list built inside `urlencode` is the per-pair encoding of the
flattened `(key, value)` pairs. -/
theorem urlencode_parts (items : List (Str × List Str)) :
    items.foldr (fun kv acc => kv.2.map (fun v => quotePlus kv.1 ++ '=' :: quotePlus v) ++ acc) []
      = ((items.map (fun kv => kv.2.map (fun v => (kv.1, v)))).flatten).map
          (fun kv => quotePlus kv.1 ++ '=' :: quotePlus kv.2) := by
  induction items with
  | nil => rfl
  | cons kv rest ih =>
    simp [ih, List.map_map, Function.comp]

/-- `parse_qsl` recovers a flat pair list from its `=`/`&` encoding, when all
value strings are non-empty. -/
theorem parse_qsl_encoded (pairs : List (Str × Str)) (hv : ∀ kv ∈ pairs, kv.2 ≠ []) :
    parse_qsl (joinAmp (pairs.map (fun kv => quotePlus kv.1 ++ '=' :: quotePlus kv.2))) = pairs := by
  cases hp : pairs.map (fun kv => quotePlus kv.1 ++ '=' :: quotePlus kv.2) with
  | nil =>
    have h0 : pairs = [] := List.map_eq_nil_iff.mp hp
    subst h0; rfl
  | cons p ps =>
    rw [← hp]
    unfold parse_qsl
    rw [Py.splitChar_joinAmp _ (by rw [hp]; simp) (by
      intro part hpart hamp
      obtain ⟨kv, hkv, rfl⟩ := List.mem_map.mp hpart
      rcases List.mem_append.mp hamp with hin | hin
      · exact (Py.quotePlus_not_mem _ _ hin).1 rfl
      · rcases List.mem_cons.mp hin with heq | hin'
        · exact absurd heq (by decide)
        · exact (Py.quotePlus_not_mem _ _ hin').1 rfl)]
    clear hp
    induction pairs with
    | nil => rfl
    | cons kv rest ih =>
      have hne : ¬(quotePlus kv.1 ++ '=' :: quotePlus kv.2 = ([] : Str)) := by simp
      have hso : splitOnce '=' (quotePlus kv.1 ++ '=' :: quotePlus kv.2)
          = some (quotePlus kv.1, quotePlus kv.2) :=
        splitOnce_append '=' _ _ (fun hm => (Py.quotePlus_not_mem _ _ hm).2.1 rfl)
      have hvne : ¬(quotePlus kv.2 = []) :=
        quotePlus_ne_nil (hv kv (List.mem_cons_self kv rest))
      simp only [List.map_cons, List.foldr_cons, if_neg hne, hso, if_neg hvne,
        unquote_plusToSpace_quotePlus,
        ih (fun k hk => hv k (List.mem_cons_of_mem kv hk))]

end Urllib

namespace Urllib

open Py

/-- Keys of the dict after one `qsInsert` step. -/
theorem qsInsert_keys (d : List (Str × List Str)) (k : Str) (v : Str) :
    (qsInsert d k v).map Prod.fst =
      if k ∈ d.map Prod.fst then d.map Prod.fst else d.map Prod.fst ++ [k] := by
  induction d with
  | nil => rfl
  | cons kv rest ih =>
    obtain ⟨k', vs⟩ := kv
    by_cases hk : k' = k
    · subst hk
      simp [qsInsert]
    · simp only [qsInsert, if_neg hk, List.map_cons, ih]
      split <;> rename_i hmem
      · rw [if_pos (List.mem_cons_of_mem k' hmem)]
      · rw [if_neg (by
          simp only [List.mem_cons, not_or]
          exact ⟨fun e => hk e.symm, hmem⟩), List.cons_append]

/-- `qsInsert` on a fresh key appends a singleton entry. -/
theorem qsInsert_fresh (d : List (Str × List Str)) (k : Str) (v : Str)
    (h : k ∉ d.map Prod.fst) : qsInsert d k v = d ++ [(k, [v])] := by
  induction d with
  | nil => rfl
  | cons kv rest ih =>
    obtain ⟨k', vs⟩ := kv
    have hk : ¬(k' = k) := by
      intro e; exact h (by simp [e])
    simp only [qsInsert, if_neg hk, List.cons_append]
    rw [ih (fun hm => h (by simp [hm]))]

/-- `qsInsert` at the key of the last entry extends that entry's value list. -/
theorem qsInsert_last (acc : List (Str × List Str)) (k : Str) (ws : List Str) (v : Str)
    (h : k ∉ acc.map Prod.fst) :
    qsInsert (acc ++ [(k, ws)]) k v = acc ++ [(k, ws ++ [v])] := by
  induction acc with
  | nil => simp [qsInsert]
  | cons kv rest ih =>
    obtain ⟨k', vs⟩ := kv
    have hk : ¬(k' = k) := by
      intro e; exact h (by simp [e])
    simp only [List.cons_append, qsInsert, if_neg hk, List.append_eq]
    rw [ih (fun hm => h (by simp [hm]))]

/-- Folding a run of pairs with one key into a dict ending in that key extends
the last entry with all the values, in order. -/
theorem qs_fold_run (k : Str) (vs : List Str) :
    ∀ (acc : List (Str × List Str)) (ws : List Str), k ∉ acc.map Prod.fst →
    (vs.map (fun v => (k, v))).foldl (fun d p => qsInsert d p.1 p.2) (acc ++ [(k, ws)])
      = acc ++ [(k, ws ++ vs)] := by
  induction vs with
  | nil => intro acc ws h; simp
  | cons v vs' ih =>
    intro acc ws h
    simp only [List.map_cons, List.foldl_cons]
    rw [qsInsert_last acc k ws v h, ih acc (ws ++ [v]) h, List.append_assoc]
    rfl

/-- Folding the flattened pairs of a distinct-key, non-empty-values item list
into a dict containing none of its keys appends the items unchanged. -/
theorem qs_fold_flat (items : List (Str × List Str)) :
    ∀ (acc : List (Str × List Str)),
    (items.map Prod.fst).Nodup →
    (∀ k ∈ items.map Prod.fst, k ∉ acc.map Prod.fst) →
    (∀ kv ∈ items, kv.2 ≠ []) →
    ((items.map (fun kv => kv.2.map (fun v => (kv.1, v)))).flatten).foldl
        (fun d p => qsInsert d p.1 p.2) acc
      = acc ++ items := by
  induction items with
  | nil => intro acc _ _ _; simp
  | cons kv rest ih =>
    intro acc hnd hfresh hvals
    obtain ⟨k, vs⟩ := kv
    simp only [List.map_cons, List.flatten_cons, List.foldl_append]
    cases vs with
    | nil => exact absurd rfl (hvals (k, []) (by simp))
    | cons v0 vs' =>
      have hkacc : k ∉ acc.map Prod.fst := hfresh k (by simp)
      have h1 : ((v0 :: vs').map (fun v => (k, v))).foldl (fun d p => qsInsert d p.1 p.2) acc
          = acc ++ [(k, v0 :: vs')] := by
        simp only [List.map_cons, List.foldl_cons]
        rw [qsInsert_fresh acc k v0 hkacc]
        exact qs_fold_run k vs' acc [v0] hkacc
      rw [h1]
      have hnd' : (rest.map Prod.fst).Nodup := (List.nodup_cons.mp hnd).2
      have hknotin : k ∉ rest.map Prod.fst := (List.nodup_cons.mp hnd).1
      rw [ih (acc ++ [(k, v0 :: vs')]) hnd'
        (by
          intro k' hk'
          simp only [List.map_append, List.map_cons, List.map_nil, List.mem_append,
            List.mem_cons, List.not_mem_nil, or_false]
          rintro (hin | rfl)
          · exact hfresh k' (by simp [hk']) hin
          · exact hknotin hk')
        (fun kv' hkv' => hvals kv' (List.mem_cons_of_mem _ hkv'))]
      simp

end Urllib

namespace Py

/-- UTF-8 decoding of a non-empty byte list is non-empty. -/
theorem utf8Decode_ne_nil {l : List Nat} (h : l ≠ []) : utf8Decode l ≠ [] := by
  cases l with
  | nil => exact absurd rfl h
  | cons b rest =>
    rw [utf8Decode.eq_def]
    dsimp only
    repeat' split
    all_goals exact List.cons_ne_nil _ _

/-- Tokenizing a non-empty string yields at least one token. -/
theorem pctTokenize_ne_nil {s : Str} (h : s ≠ []) : pctTokenize s ≠ [] := by
  rw [pctTokenize.eq_def]
  split
  · exact absurd rfl h
  · split <;> simp
  · simp

/-- Decoding is non-empty when the tokens or the pending byte run are. -/
theorem pctDecodeAux_ne_nil :
    ∀ (T : List (Sum Char Nat)) (acc : List Nat), ¬(T = [] ∧ acc = []) →
    pctDecodeAux T acc ≠ [] := by
  intro T
  induction T with
  | nil =>
    intro acc h
    rw [pctDecodeAux_nil]
    exact utf8Decode_ne_nil (by
      simp only [ne_eq, List.reverse_eq_nil_iff]
      exact fun e => h ⟨rfl, e⟩)
  | cons t T' ih =>
    intro acc h
    cases t with
    | inl c => rw [pctDecodeAux_inl]; simp
    | inr b =>
      rw [pctDecodeAux_inr]
      exact ih (b :: acc) (by simp)

/-- `unquote` of a non-empty string is non-empty. -/
theorem unquote_ne_nil {s : Str} (h : s ≠ []) : unquote s ≠ [] :=
  pctDecodeAux_ne_nil _ [] (fun hc => pctTokenize_ne_nil h hc.1)

/-- `plusToSpace` of a non-empty string is non-empty. -/
theorem plusToSpace_ne_nil {s : Str} (h : s ≠ []) : plusToSpace s ≠ [] := by
  cases s with
  | nil => exact absurd rfl h
  | cons c t => simp [plusToSpace]

end Py

namespace Urllib

open Py

/-- Every value string produced by `parse_qsl` is non-empty. -/
theorem parse_qsl_vals_ne_nil (q : Str) :
    ∀ kv ∈ parse_qsl q, kv.2 ≠ [] := by
  unfold parse_qsl
  induction splitChar '&' q with
  | nil => simp
  | cons nv parts ih =>
    intro kv hkv
    simp only [List.foldr_cons] at hkv
    revert hkv
    split
    · exact fun hkv => ih kv hkv
    · split
      · exact fun hkv => ih kv hkv
      · split
        · exact fun hkv => ih kv hkv
        · rename_i hv0
          intro hkv
          rcases List.mem_cons.mp hkv with rfl | hkv'
          · exact unquote_ne_nil (plusToSpace_ne_nil hv0)
          · exact ih kv hkv'

/-- Folding pairs through `qsInsert` keeps the key list duplicate-free. -/
theorem qs_fold_keys_nodup (pairs : List (Str × Str)) :
    ∀ d : List (Str × List Str), (d.map Prod.fst).Nodup →
    ((pairs.foldl (fun d p => qsInsert d p.1 p.2) d).map Prod.fst).Nodup := by
  induction pairs with
  | nil => intro d h; exact h
  | cons p ps ih =>
    intro d h
    simp only [List.foldl_cons]
    apply ih
    rw [qsInsert_keys]
    split
    · exact h
    · rename_i hnot
      simp [List.nodup_append, h, hnot]

/-- The keys of a `parse_qs` dict are duplicate-free. -/
theorem parse_qs_keys_nodup (q : Str) : ((parse_qs q).map Prod.fst).Nodup :=
  qs_fold_keys_nodup _ [] (by simp)

/-- `qsInsert` keeps every value list non-empty. -/
theorem qsInsert_vals_ne_nil (d : List (Str × List Str)) (k : Str) (v : Str)
    (h : ∀ kv ∈ d, kv.2 ≠ []) : ∀ kv ∈ qsInsert d k v, kv.2 ≠ [] := by
  induction d with
  | nil => simp [qsInsert]
  | cons kv0 rest ih =>
    obtain ⟨k', vs⟩ := kv0
    intro kv hkv
    by_cases hk : k' = k
    · rw [qsInsert, if_pos hk] at hkv
      rcases List.mem_cons.mp hkv with rfl | hkv'
      · simp
      · exact h kv (List.mem_cons_of_mem _ hkv')
    · rw [qsInsert, if_neg hk] at hkv
      rcases List.mem_cons.mp hkv with rfl | hkv'
      · exact h (k', vs) (by simp)
      · exact ih (fun kv2 hkv2 => h kv2 (List.mem_cons_of_mem _ hkv2)) kv hkv'

/-- Every value list in a `parse_qs` dict is non-empty. -/
theorem parse_qs_val_lists_ne_nil (q : Str) : ∀ kv ∈ parse_qs q, kv.2 ≠ [] := by
  unfold parse_qs
  have main : ∀ (pairs : List (Str × Str)) (d : List (Str × List Str)),
      (∀ kv ∈ d, kv.2 ≠ []) →
      ∀ kv ∈ pairs.foldl (fun d p => qsInsert d p.1 p.2) d, kv.2 ≠ [] := by
    intro pairs
    induction pairs with
    | nil => intro d h; exact h
    | cons p ps ih =>
      intro d h
      simp only [List.foldl_cons]
      exact ih _ (qsInsert_vals_ne_nil d p.1 p.2 h)
  exact main _ [] (by simp)

/-- `qsInsert` introduces only values drawn from the inputs. -/
theorem qsInsert_val_mem (d : List (Str × List Str)) (k : Str) (v : Str)
    (kv : Str × List Str) (hkv : kv ∈ qsInsert d k v) (w : Str) (hw : w ∈ kv.2) :
    (∃ kv' ∈ d, w ∈ kv'.2) ∨ w = v := by
  induction d with
  | nil =>
    simp only [qsInsert, List.mem_cons, List.not_mem_nil, or_false] at hkv
    subst hkv
    simp only [List.mem_cons, List.not_mem_nil, or_false] at hw
    exact Or.inr hw
  | cons kv0 rest ih =>
    obtain ⟨k', vs⟩ := kv0
    by_cases hk : k' = k
    · rw [qsInsert, if_pos hk] at hkv
      rcases List.mem_cons.mp hkv with rfl | hkv'
      · simp only [List.mem_append, List.mem_cons, List.not_mem_nil, or_false] at hw
        rcases hw with hw | rfl
        · exact Or.inl ⟨(k', vs), by simp, hw⟩
        · exact Or.inr rfl
      · exact Or.inl ⟨kv, List.mem_cons_of_mem _ hkv', hw⟩
    · rw [qsInsert, if_neg hk] at hkv
      rcases List.mem_cons.mp hkv with rfl | hkv'
      · exact Or.inl ⟨(k', vs), by simp, hw⟩
      · rcases ih hkv' with ⟨kv', hkv'', hw'⟩ | hw'
        · exact Or.inl ⟨kv', List.mem_cons_of_mem _ hkv'', hw'⟩
        · exact Or.inr hw'

/-- Every value string stored by `parse_qs` is a `parse_qsl` value. -/
theorem parse_qs_val_strings (q : Str) :
    ∀ kv ∈ parse_qs q, ∀ w ∈ kv.2, ∃ p ∈ parse_qsl q, p.2 = w := by
  unfold parse_qs
  suffices main : ∀ (pairs : List (Str × Str)) (d : List (Str × List Str)),
      (∀ kv ∈ d, ∀ w ∈ kv.2, ∃ p ∈ parse_qsl q, p.2 = w) →
      (∀ p ∈ pairs, p ∈ parse_qsl q) →
      ∀ kv ∈ pairs.foldl (fun d p => qsInsert d p.1 p.2) d, ∀ w ∈ kv.2,
        ∃ p ∈ parse_qsl q, p.2 = w by
    exact main (parse_qsl q) [] (by simp) (fun p hp => hp)
  intro pairs
  induction pairs with
  | nil => intro d h _; exact h
  | cons p ps ih =>
    intro d h hsub
    simp only [List.foldl_cons]
    apply ih
    · intro kv hkv w hw
      rcases qsInsert_val_mem d p.1 p.2 kv hkv w hw with ⟨kv', hkv', hw'⟩ | rfl
      · exact h kv' hkv' w hw'
      · exact ⟨p, hsub p (by simp), rfl⟩
    · exact fun p' hp' => hsub p' (List.mem_cons_of_mem _ hp')

end Urllib

namespace Urllib

open Py

/-- `strLt` is irreflexive. -/
theorem strLt_irrefl (a : Str) : strLt a a = false := by
  induction a with
  | nil => rfl
  | cons x xs ih => simp [strLt, ih]

/-- `strLt` is total on distinct strings. -/
theorem strLt_total (a b : Str) (h : a ≠ b) : strLt a b = true ∨ strLt b a = true := by
  induction a generalizing b with
  | nil =>
    cases b with
    | nil => exact absurd rfl h
    | cons y ys => exact Or.inl rfl
  | cons x xs ih =>
    cases b with
    | nil => exact Or.inr rfl
    | cons y ys =>
      by_cases hxy : x.toNat < y.toNat
      · exact Or.inl (by simp [strLt, hxy])
      · by_cases hyx : y.toNat < x.toNat
        · exact Or.inr (by simp [strLt, hyx])
        · have hxeq : x = y := char_toNat_inj (by omega)
          subst hxeq
          have hne : xs ≠ ys := fun e => h (by rw [e])
          rcases ih ys hne with hlt | hlt
          · exact Or.inl (by simp [strLt, hlt])
          · exact Or.inr (by simp [strLt, hlt])

/-- `strLt` is transitive. -/
theorem strLt_trans {a b c : Str} (hab : strLt a b = true) (hbc : strLt b c = true) :
    strLt a c = true := by
  induction a generalizing b c with
  | nil =>
    cases b with
    | nil => simp [strLt] at hab
    | cons y ys =>
      cases c with
      | nil => simp [strLt] at hbc
      | cons z zs => rfl
  | cons x xs ih =>
    cases b with
    | nil => simp [strLt] at hab
    | cons y ys =>
      cases c with
      | nil => simp [strLt] at hbc
      | cons z zs =>
        rw [strLt] at hab hbc ⊢
        by_cases hxy : x.toNat < y.toNat
        · by_cases hyz : y.toNat < z.toNat
          · rw [if_pos (by omega : x.toNat < z.toNat)]
          · rw [if_neg hyz] at hbc
            by_cases hzy : z.toNat < y.toNat
            · rw [if_pos hzy] at hbc; exact absurd hbc (by simp)
            · rw [if_pos (by omega : x.toNat < z.toNat)]
        · rw [if_neg hxy] at hab
          by_cases hyx : y.toNat < x.toNat
          · rw [if_pos hyx] at hab; exact absurd hab (by simp)
          · rw [if_neg hyx] at hab
            have hxeq : x = y := char_toNat_inj (by omega)
            subst hxeq
            by_cases hyz : x.toNat < z.toNat
            · rw [if_pos hyz]
            · rw [if_neg hyz] at hbc ⊢
              by_cases hzy : z.toNat < x.toNat
              · rw [if_pos hzy] at hbc; exact absurd hbc (by simp)
              · rw [if_neg hzy] at hbc ⊢
                exact ih hab hbc

/-- Membership in a `sortInsert` result. -/
theorem mem_sortInsert (x a : Str × List Str) (l : List (Str × List Str)) :
    a ∈ sortInsert x l ↔ a = x ∨ a ∈ l := by
  induction l with
  | nil => simp [sortInsert]
  | cons y ys ih =>
    rw [sortInsert]
    split
    · simp [or_left_comm, or_comm]
    · rw [List.mem_cons, ih, List.mem_cons]
      tauto

/-- Membership in a `sortItems` result. -/
theorem mem_sortItems (a : Str × List Str) (l : List (Str × List Str)) :
    a ∈ sortItems l ↔ a ∈ l := by
  induction l with
  | nil => simp [sortItems]
  | cons y ys ih =>
    rw [sortItems, List.foldr_cons]
    rw [show ys.foldr sortInsert [] = sortItems ys from rfl]
    rw [mem_sortInsert, ih, List.mem_cons]

/-- `sortInsert` preserves sortedness by key when the new key is fresh. -/
theorem sortInsert_sorted (x : Str × List Str) (l : List (Str × List Str))
    (hl : l.Pairwise (fun a b => strLt a.1 b.1 = true))
    (hx : ∀ y ∈ l, x.1 ≠ y.1) :
    (sortInsert x l).Pairwise (fun a b => strLt a.1 b.1 = true) := by
  induction l with
  | nil => simp [sortInsert]
  | cons y ys ih =>
    rw [sortInsert]
    split
    · rename_i hlt
      refine List.Pairwise.cons ?_ hl
      intro b hb
      rcases List.mem_cons.mp hb with rfl | hb'
      · exact hlt
      · exact strLt_trans hlt ((List.pairwise_cons.mp hl).1 b hb')
    · rename_i hnlt
      have hyx : strLt y.1 x.1 = true := by
        rcases strLt_total x.1 y.1 (hx y (by simp)) with h | h
        · exact absurd h hnlt
        · exact h
      refine List.Pairwise.cons ?_ (ih (List.pairwise_cons.mp hl).2
        (fun z hz => hx z (List.mem_cons_of_mem _ hz)))
      intro b hb
      rcases (mem_sortInsert x b ys).mp hb with rfl | hb'
      · exact hyx
      · exact (List.pairwise_cons.mp hl).1 b hb'

/-- `sortItems` of a distinct-key list is sorted by key. -/
theorem sortItems_sorted (l : List (Str × List Str))
    (hnd : (l.map Prod.fst).Nodup) :
    (sortItems l).Pairwise (fun a b => strLt a.1 b.1 = true) := by
  induction l with
  | nil => simp [sortItems]
  | cons y ys ih =>
    rw [sortItems, List.foldr_cons, show ys.foldr sortInsert [] = sortItems ys from rfl]
    apply sortInsert_sorted
    · exact ih (List.nodup_cons.mp hnd).2
    · intro z hz
      have hz' : z ∈ ys := (mem_sortItems z ys).mp hz
      intro he
      exact (List.nodup_cons.mp hnd).1 (he ▸ List.mem_map_of_mem Prod.fst hz')

/-- `sortInsert` into a sorted list whose head dominates the new element keeps
order; inserting below the head is just `cons`. -/
theorem sortInsert_cons_of_lt (x y : Str × List Str) (ys : List (Str × List Str))
    (h : strLt x.1 y.1 = true) : sortInsert x (y :: ys) = x :: y :: ys := by
  rw [sortInsert, if_pos h]

/-- `sortItems` is the identity on lists already sorted by key. -/
theorem sortItems_of_sorted (l : List (Str × List Str))
    (hl : l.Pairwise (fun a b => strLt a.1 b.1 = true)) : sortItems l = l := by
  induction l with
  | nil => rfl
  | cons y ys ih =>
    rw [sortItems, List.foldr_cons, show ys.foldr sortInsert [] = sortItems ys from rfl]
    rw [ih (List.pairwise_cons.mp hl).2]
    cases ys with
    | nil => rfl
    | cons z zs =>
      exact sortInsert_cons_of_lt y z zs ((List.pairwise_cons.mp hl).1 z (by simp))

end Urllib

namespace Urllib

open Py

/-- Keys of a key-sorted list are duplicate-free (`strLt` is irreflexive). -/
theorem sorted_keys_nodup (l : List (Str × List Str))
    (hl : l.Pairwise (fun a b => strLt a.1 b.1 = true)) :
    (l.map Prod.fst).Nodup := by
  induction l with
  | nil => simp
  | cons y ys ih =>
    rw [List.map_cons, List.nodup_cons]
    refine ⟨?_, ih (List.pairwise_cons.mp hl).2⟩
    intro hmem
    obtain ⟨z, hz, he⟩ := List.mem_map.mp hmem
    have hlt := (List.pairwise_cons.mp hl).1 z hz
    rw [he] at hlt
    rw [strLt_irrefl] at hlt
    exact Bool.false_ne_true hlt

/-- `qsInsert` never returns the empty dict. -/
theorem qsInsert_ne_nil (d : List (Str × List Str)) (k : Str) (v : Str) :
    qsInsert d k v ≠ [] := by
  cases d with
  | nil => simp [qsInsert]
  | cons kv rest =>
    obtain ⟨k', vs⟩ := kv
    rw [qsInsert]
    split <;> simp

/-- A `qsInsert` fold starting from a non-empty dict stays non-empty. -/
theorem qs_fold_ne_nil (pairs : List (Str × Str)) :
    ∀ d : List (Str × List Str), d ≠ [] →
    pairs.foldl (fun d p => qsInsert d p.1 p.2) d ≠ [] := by
  induction pairs with
  | nil => intro d h; exact h
  | cons p ps ih =>
    intro d _
    simp only [List.foldl_cons]
    exact ih _ (qsInsert_ne_nil d p.1 p.2)

/-- `parse_qs` is non-empty whenever `parse_qsl` is. -/
theorem parse_qs_ne_nil {q : Str} (hq : parse_qsl q ≠ []) : parse_qs q ≠ [] := by
  unfold parse_qs
  cases hp : parse_qsl q with
  | nil => exact absurd hp hq
  | cons p rest =>
    simp only [List.foldl_cons]
    exact qs_fold_ne_nil rest _ (qsInsert_ne_nil [] p.1 p.2)

/-- `sortItems` is non-empty on non-empty input. -/
theorem sortItems_ne_nil {l : List (Str × List Str)} (h : l ≠ []) :
    sortItems l ≠ [] := by
  cases l with
  | nil => exact absurd rfl h
  | cons kv rest =>
    intro he
    have := (mem_sortItems kv (kv :: rest)).mpr (by simp)
    rw [he] at this
    exact List.not_mem_nil kv this

/-- `urlencode` is a section of `parse_qs` on canonical dicts: distinct keys,
non-empty value lists, non-empty value strings. -/
theorem parse_qs_urlencode (items : List (Str × List Str))
    (hnd : (items.map Prod.fst).Nodup)
    (hvl : ∀ kv ∈ items, kv.2 ≠ [])
    (hvs : ∀ kv ∈ items, ∀ w ∈ kv.2, w ≠ []) :
    parse_qs (urlencode items) = items := by
  unfold parse_qs urlencode
  rw [urlencode_parts]
  rw [parse_qsl_encoded _ (by
    intro kv hkv
    obtain ⟨l, hl, hkvl⟩ := List.mem_flatten.mp hkv
    obtain ⟨item, hitem, rfl⟩ := List.mem_map.mp hl
    obtain ⟨w, hw, rfl⟩ := List.mem_map.mp hkvl
    exact hvs item hitem w hw)]
  have := qs_fold_flat items [] hnd (by simp) hvl
  rw [this]
  rfl

/-- Members of `joinAmp` output are separators or member characters of parts. -/
theorem mem_joinAmp (parts : List Str) (x : Char) (hx : x ∈ joinAmp parts) :
    x = '&' ∨ ∃ p ∈ parts, x ∈ p := by
  induction parts with
  | nil => exact absurd hx (List.not_mem_nil x)
  | cons p ps ih =>
    cases ps with
    | nil => exact Or.inr ⟨p, by simp, hx⟩
    | cons y rest =>
      rw [show joinAmp (p :: y :: rest) = p ++ '&' :: joinAmp (y :: rest) from rfl] at hx
      rcases List.mem_append.mp hx with hin | hin
      · exact Or.inr ⟨p, by simp, hin⟩
      · rcases List.mem_cons.mp hin with rfl | hin'
        · exact Or.inl rfl
        · rcases ih hin' with h | ⟨p', hp', hxp'⟩
          · exact Or.inl h
          · exact Or.inr ⟨p', List.mem_cons_of_mem _ hp', hxp'⟩

/-- `urlencode` output never contains `#` or `?`. -/
theorem urlencode_no_hash_question (items : List (Str × List Str)) :
    ∀ x ∈ urlencode items, x ≠ '#' ∧ x ≠ '?' := by
  intro x hx
  unfold urlencode at hx
  rw [urlencode_parts] at hx
  rcases mem_joinAmp _ x hx with rfl | ⟨p, hp, hxp⟩
  · exact ⟨by decide, by decide⟩
  · obtain ⟨kv, hkv, rfl⟩ := List.mem_map.mp hp
    rcases List.mem_append.mp hxp with hin | hin
    · exact ⟨(quotePlus_not_mem _ _ hin).2.2.1, (quotePlus_not_mem _ _ hin).2.2.2⟩
    · rcases List.mem_cons.mp hin with rfl | hin'
      · exact ⟨by decide, by decide⟩
      · exact ⟨(quotePlus_not_mem _ _ hin').2.2.1, (quotePlus_not_mem _ _ hin').2.2.2⟩

/-- `joinAmp` of parts led by a non-empty part is non-empty. -/
theorem joinAmp_ne_nil (p : Str) (ps : List Str) (h : p ≠ []) :
    joinAmp (p :: ps) ≠ [] := by
  cases ps with
  | nil => exact h
  | cons y rest =>
    rw [show joinAmp (p :: y :: rest) = p ++ '&' :: joinAmp (y :: rest) from rfl]
    simp

/-- `urlencode` of a non-empty canonical dict is non-empty. -/
theorem urlencode_ne_nil (items : List (Str × List Str)) (hne : items ≠ [])
    (hvl : ∀ kv ∈ items, kv.2 ≠ []) : urlencode items ≠ [] := by
  unfold urlencode
  rw [urlencode_parts]
  cases items with
  | nil => exact absurd rfl hne
  | cons kv rest =>
    cases hvs : kv.2 with
    | nil => exact absurd hvs (hvl kv (by simp))
    | cons v0 vs' =>
      simp only [List.map_cons, hvs, List.flatten_cons, List.cons_append]
      exact joinAmp_ne_nil _ _ (by simp)

end Urllib

namespace Py

/-- `splitOnce` returns `none` exactly when the separator is absent. -/
theorem splitOnce_none {sep : Char} {s : Str} (h : splitOnce sep s = none) : sep ∉ s := by
  induction s with
  | nil => simp
  | cons c t ih =>
    rw [splitOnce] at h
    by_cases hc : c = sep
    · rw [if_pos hc] at h; exact absurd h (by simp)
    · rw [if_neg hc] at h
      simp only [List.mem_cons, not_or]
      refine ⟨fun e => hc e.symm, ih ?_⟩
      cases hs : splitOnce sep t with
      | none => rfl
      | some p => rw [hs] at h; exact absurd h (by simp)

/-- `lowerChar` is idempotent. -/
theorem lowerChar_idem (c : Char) : lowerChar (lowerChar c) = lowerChar c := by
  unfold lowerChar
  by_cases h : 65 ≤ c.toNat ∧ c.toNat ≤ 90
  · rw [if_pos h]
    have ht : (Char.ofNat (c.toNat + 32)).toNat = c.toNat + 32 :=
      toNat_ofNat_small (by omega)
    rw [if_neg (by rw [ht]; omega)]
  · rw [if_neg h, if_neg h]

/-- `lower` is idempotent. -/
theorem lower_idem (s : Str) : lower (lower s) = lower s := by
  unfold lower
  rw [List.map_map]
  exact List.map_congr_left (fun c _ => lowerChar_idem c)

end Py

namespace Urllib

open Py

/-- `lowerChar` preserves ASCII-alphabetic-ness. -/
theorem isAsciiAlpha_lowerChar {c : Char} (h : isAsciiAlpha c = true) :
    isAsciiAlpha (lowerChar c) = true := by
  unfold lowerChar
  by_cases hu : 65 ≤ c.toNat ∧ c.toNat ≤ 90
  · rw [if_pos hu]
    have ht : (Char.ofNat (c.toNat + 32)).toNat = c.toNat + 32 :=
      toNat_ofNat_small (by omega)
    simp only [isAsciiAlpha, ht, Bool.or_eq_true, decide_eq_true_eq]
    right; omega
  · rw [if_neg hu]; exact h

/-- `lowerChar` preserves scheme-character validity. -/
theorem schemeCharOk_lowerChar {c : Char} (h : schemeCharOk c = true) :
    schemeCharOk (lowerChar c) = true := by
  unfold lowerChar
  by_cases hu : 65 ≤ c.toNat ∧ c.toNat ≤ 90
  · rw [if_pos hu]
    have ht : (Char.ofNat (c.toNat + 32)).toNat = c.toNat + 32 :=
      toNat_ofNat_small (by omega)
    simp only [schemeCharOk, ht, Bool.or_eq_true, decide_eq_true_eq]
    left; left; left; left; right; omega
  · rw [if_neg hu]; exact h

/-- `schemeLoop` accepts a valid scheme body up to the first colon. -/
theorem schemeLoop_append (s r : Str) (h : ∀ c ∈ s, schemeCharOk c = true) :
    schemeLoop (s ++ ':' :: r) = some (s, r) := by
  induction s with
  | nil => rfl
  | cons c cs ih =>
    have hc : schemeCharOk c = true := h c (by simp)
    have hcne : ¬(c = ':') := by
      intro e; subst e; revert hc; decide
    rw [List.cons_append, schemeLoop, if_neg hcne, if_pos hc,
      ih (fun x hx => h x (List.mem_cons_of_mem c hx))]
    rfl

/-- The tokens accepted by `schemeLoop` are scheme characters. -/
theorem schemeLoop_some_spec (cs : Str) (tail rest : Str)
    (h : schemeLoop cs = some (tail, rest)) : ∀ c ∈ tail, schemeCharOk c = true := by
  induction cs generalizing tail with
  | nil => exact absurd h (by simp [schemeLoop])
  | cons c cs' ih =>
    rw [schemeLoop] at h
    by_cases hc : c = ':'
    · rw [if_pos hc] at h
      simp only [Option.some.injEq, Prod.mk.injEq] at h
      rw [← h.1]
      simp
    · rw [if_neg hc] at h
      by_cases hok : schemeCharOk c = true
      · rw [if_pos hok] at h
        cases hs : schemeLoop cs' with
        | none => rw [hs] at h; exact absurd h (by simp)
        | some p =>
          rw [hs] at h
          simp only [Option.map_some', Option.some.injEq, Prod.mk.injEq] at h
          intro x hx
          rw [← h.1] at hx
          rcases List.mem_cons.mp hx with rfl | hx'
          · exact hok
          · exact ih p.1 (by rw [hs]; exact congrArg some (Prod.ext rfl h.2)) x hx'
      · rw [if_neg hok] at h; exact absurd h (by simp)

/-- A non-empty scheme from `splitScheme` is the lowering of an ASCII-led,
scheme-character-valid prefix. -/
theorem splitScheme_fst_spec (u : Str) (h : (splitScheme u).1 ≠ []) :
    ∃ c tail, isAsciiAlpha c = true ∧ (∀ x ∈ tail, schemeCharOk x = true) ∧
      (splitScheme u).1 = lower (c :: tail) := by
  cases u with
  | nil => exact absurd rfl h
  | cons c cs =>
    rw [splitScheme] at h ⊢
    by_cases ha : isAsciiAlpha c = true
    · rw [if_pos ha] at h ⊢
      cases hs : schemeLoop cs with
      | none => rw [hs] at h; exact absurd rfl h
      | some p =>
        obtain ⟨tail, rest⟩ := p
        exact ⟨c, tail, ha, schemeLoop_some_spec cs tail rest hs, rfl⟩
    · rw [if_neg ha] at h; exact absurd rfl h

/-- Reparsing `scheme ++ ":" ++ rest` recovers the (already lowered) scheme. -/
theorem splitScheme_reconstruct (c : Char) (tail rest : Str)
    (ha : isAsciiAlpha c = true) (hok : ∀ x ∈ tail, schemeCharOk x = true) :
    splitScheme (lower (c :: tail) ++ ':' :: rest) = (lower (c :: tail), rest) := by
  rw [show lower (c :: tail) = lowerChar c :: lower tail from rfl]
  rw [List.cons_append, splitScheme, if_pos (isAsciiAlpha_lowerChar ha)]
  rw [schemeLoop_append (lower tail) rest (by
    intro x hx
    obtain ⟨y, hy, rfl⟩ := List.mem_map.mp hx
    exact schemeCharOk_lowerChar (hok y hy))]
  show (lower (lowerChar c :: lower tail), rest) = (lowerChar c :: lower tail, rest)
  rw [show lower (lowerChar c :: lower tail) = lowerChar (lowerChar c) :: lower (lower tail)
    from rfl]
  rw [lowerChar_idem, lower_idem]

end Urllib

namespace Py

/-- `takeWhile` over an append whose first part fully satisfies the predicate. -/
theorem takeWhile_append_all (p : Char → Bool) (a b : Str) (h : ∀ x ∈ a, p x = true) :
    (a ++ b).takeWhile p = a ++ b.takeWhile p := by
  induction a with
  | nil => rfl
  | cons c t ih =>
    rw [List.cons_append, List.takeWhile_cons, if_pos (h c (by simp)),
      ih (fun x hx => h x (List.mem_cons_of_mem c hx))]
    rfl

/-- `dropWhile` over an append whose first part fully satisfies the predicate. -/
theorem dropWhile_append_all (p : Char → Bool) (a b : Str) (h : ∀ x ∈ a, p x = true) :
    (a ++ b).dropWhile p = b.dropWhile p := by
  induction a with
  | nil => rfl
  | cons c t ih =>
    rw [List.cons_append, List.dropWhile_cons, if_pos (by rw [h c (by simp)])]
    exact ih (fun x hx => h x (List.mem_cons_of_mem c hx))

/-- `dropWhile` over an arbitrary append. -/
theorem dropWhile_append_cases (p : Char → Bool) (a b : Str) :
    (a ++ b).dropWhile p =
      if a.dropWhile p = [] then b.dropWhile p else a.dropWhile p ++ b := by
  induction a with
  | nil => simp
  | cons c t ih =>
    rw [List.cons_append, List.dropWhile_cons, List.dropWhile_cons]
    by_cases hc : p c = true
    · rw [if_pos hc, if_pos hc, ih]
    · rw [if_neg hc, if_neg hc, if_neg (by simp)]
      rfl

/-- `takeWhile` over an arbitrary append. -/
theorem takeWhile_append_cases (p : Char → Bool) (a b : Str) :
    (a ++ b).takeWhile p =
      a.takeWhile p ++ if a.dropWhile p = [] then b.takeWhile p else [] := by
  induction a with
  | nil => simp
  | cons c t ih =>
    by_cases hc : p c = true <;>
      simp [List.takeWhile_cons, List.dropWhile_cons, hc, ih]

/-- The first element surviving `dropWhile` falsifies the predicate. -/
theorem dropWhile_head_not (p : Char → Bool) (l : Str) :
    l.dropWhile p = [] ∨ ∃ c t, l.dropWhile p = c :: t ∧ p c = false := by
  induction l with
  | nil => exact Or.inl rfl
  | cons c t ih =>
    rw [List.dropWhile_cons]
    by_cases hc : p c = true
    · rw [if_pos hc]; exact ih
    · rw [if_neg hc]
      exact Or.inr ⟨c, t, rfl, by
        cases hpc : p c with
        | false => rfl
        | true => exact absurd hpc hc⟩

/-- Elements of `dropWhile` output come from the input list. -/
theorem mem_of_mem_dropWhile (p : Char → Bool) (l : Str) (x : Char)
    (hx : x ∈ l.dropWhile p) : x ∈ l := by
  induction l with
  | nil => exact absurd hx (List.not_mem_nil x)
  | cons c t ih =>
    rw [List.dropWhile_cons] at hx
    by_cases hc : p c = true
    · rw [if_pos hc] at hx
      exact List.mem_cons_of_mem c (ih hx)
    · rw [if_neg hc] at hx
      exact hx

end Py

namespace Urllib

open Py

/-- `splitLastSlash` recognises an explicit last slash. -/
theorem splitLastSlash_append (a b : Str) (h : '/' ∉ b) :
    splitLastSlash (a ++ '/' :: b) = some (a, b) := by
  unfold splitLastSlash
  have hrev : (a ++ '/' :: b).reverse = b.reverse ++ '/' :: a.reverse := by
    rw [List.reverse_append, List.reverse_cons, List.append_assoc]
    rfl
  rw [hrev, splitOnce_append '/' _ _ (fun hm => h (List.mem_reverse.mp hm))]
  simp

/-- `splitLastSlash` is `none` exactly on slash-free strings. -/
theorem splitLastSlash_of_not_mem (p : Str) (h : '/' ∉ p) : splitLastSlash p = none := by
  unfold splitLastSlash
  rw [splitOnce_of_not_mem '/' _ (fun hm => h (List.mem_reverse.mp hm))]

/-- What a successful `splitLastSlash` means. -/
theorem splitLastSlash_some_spec (p pre post : Str)
    (h : splitLastSlash p = some (pre, post)) :
    p = pre ++ '/' :: post ∧ '/' ∉ post := by
  unfold splitLastSlash at h
  cases hs : splitOnce '/' p.reverse with
  | none => rw [hs] at h; exact absurd h (by simp)
  | some q =>
    rw [hs] at h
    simp only [Option.some.injEq, Prod.mk.injEq] at h
    obtain ⟨hq2, hq1⟩ := h
    obtain ⟨heq, hnin⟩ := splitOnce_eq_some hs
    constructor
    · rw [← List.reverse_reverse p, heq, List.reverse_append, List.reverse_cons,
        List.append_assoc, hq1, hq2]
      rfl
    · rw [← hq1]
      exact fun hm => hnin (List.mem_reverse.mp hm)

/-- A `none` from `splitLastSlash` means no slash at all. -/
theorem splitLastSlash_none_spec (p : Str) (h : splitLastSlash p = none) : '/' ∉ p := by
  unfold splitLastSlash at h
  cases hs : splitOnce '/' p.reverse with
  | some q => rw [hs] at h; exact absurd h (by simp)
  | none =>
    intro hm
    exact splitOnce_none hs (List.mem_reverse.mpr hm)

/-- `splitParams` equation: last slash found, semicolon in the last segment. -/
theorem splitParams_ss (p pre post a b : Str)
    (hls : splitLastSlash p = some (pre, post)) (hso : splitOnce ';' post = some (a, b)) :
    splitParams p = (pre ++ '/' :: a, b) := by
  unfold splitParams
  rw [hls]
  show (match splitOnce ';' post with
    | some ab => (pre ++ '/' :: ab.1, ab.2)
    | none => (p, [])) = (pre ++ '/' :: a, b)
  rw [hso]

/-- `splitParams` equation: last slash found, no semicolon in the last segment. -/
theorem splitParams_sn (p pre post : Str)
    (hls : splitLastSlash p = some (pre, post)) (hso : splitOnce ';' post = none) :
    splitParams p = (p, []) := by
  unfold splitParams
  rw [hls]
  show (match splitOnce ';' post with
    | some ab => (pre ++ '/' :: ab.1, ab.2)
    | none => (p, [])) = (p, [])
  rw [hso]

/-- `splitParams` equation: no slash, semicolon present. -/
theorem splitParams_ns (p a b : Str)
    (hls : splitLastSlash p = none) (hso : splitOnce ';' p = some (a, b)) :
    splitParams p = (a, b) := by
  unfold splitParams
  rw [hls]
  show (match splitOnce ';' p with
    | some ab => (ab.1, ab.2)
    | none => (p, [])) = (a, b)
  rw [hso]

/-- `splitParams` equation: no slash, no semicolon. -/
theorem splitParams_nn (p : Str)
    (hls : splitLastSlash p = none) (hso : splitOnce ';' p = none) :
    splitParams p = (p, []) := by
  unfold splitParams
  rw [hls]
  show (match splitOnce ';' p with
    | some ab => (ab.1, ab.2)
    | none => (p, [])) = (p, [])
  rw [hso]

/-- Characters of the params-stripped path come from the path. -/
theorem mem_splitParams_fst (p : Str) (x : Char) (hx : x ∈ (splitParams p).1) : x ∈ p := by
  cases hls : splitLastSlash p with
  | some pp =>
    obtain ⟨pre, post⟩ := pp
    obtain ⟨heq, -⟩ := splitLastSlash_some_spec p pre post hls
    cases hso : splitOnce ';' post with
    | some ab =>
      obtain ⟨a, b⟩ := ab
      rw [splitParams_ss p pre post a b hls hso] at hx
      obtain ⟨heq2, -⟩ := splitOnce_eq_some hso
      rw [heq, heq2]
      rcases List.mem_append.mp hx with hin | hin
      · exact List.mem_append.mpr (Or.inl hin)
      · rcases List.mem_cons.mp hin with rfl | hin'
        · simp
        · simp [hin']
    | none =>
      rw [splitParams_sn p pre post hls hso] at hx
      exact hx
  | none =>
    cases hso : splitOnce ';' p with
    | some ab =>
      obtain ⟨a, b⟩ := ab
      rw [splitParams_ns p a b hls hso] at hx
      obtain ⟨heq2, -⟩ := splitOnce_eq_some hso
      rw [heq2]
      exact List.mem_append.mpr (Or.inl hx)
    | none =>
      rw [splitParams_nn p hls hso] at hx
      exact hx

end Urllib

namespace Urllib

open Py

/-- `splitParams` already applied leaves nothing: its first component has no
params to strip. -/
theorem splitParams_fst_idem (p : Str) :
    splitParams (splitParams p).1 = ((splitParams p).1, []) := by
  cases hls : splitLastSlash p with
  | some pp =>
    obtain ⟨pre, post⟩ := pp
    obtain ⟨heq, hpost⟩ := splitLastSlash_some_spec p pre post hls
    cases hso : splitOnce ';' post with
    | some ab =>
      obtain ⟨a, b⟩ := ab
      rw [splitParams_ss p pre post a b hls hso]
      obtain ⟨heq2, hnin⟩ := splitOnce_eq_some hso
      have hsl : '/' ∉ a := fun hm => hpost (by rw [heq2]; exact List.mem_append.mpr (Or.inl hm))
      rw [splitParams_sn _ pre a (splitLastSlash_append pre a hsl)
        (splitOnce_of_not_mem ';' a hnin)]
    | none =>
      rw [splitParams_sn p pre post hls hso]
      rw [splitParams_sn p pre post hls hso]
  | none =>
    have hns : '/' ∉ p := splitLastSlash_none_spec p hls
    cases hso : splitOnce ';' p with
    | some ab =>
      obtain ⟨a, b⟩ := ab
      rw [splitParams_ns p a b hls hso]
      obtain ⟨heq2, hnin⟩ := splitOnce_eq_some hso
      have hsl : '/' ∉ a := fun hm => hns (by rw [heq2]; exact List.mem_append.mpr (Or.inl hm))
      rw [splitParams_nn a (splitLastSlash_of_not_mem a hsl)
        (splitOnce_of_not_mem ';' a hnin)]
    | none =>
      rw [splitParams_nn p hls hso]
      rw [splitParams_nn p hls hso]

/-- Stripping the pre-netloc prefix of a params-free, query/fragment-free path
leaves it params-free. -/
theorem splitParams_fst_dropWhile (P : Str) (hP : splitParams P = (P, []))
    (hh : '#' ∉ P) (hq : '?' ∉ P) :
    splitParams (P.dropWhile (fun c => !netlocStop c))
      = (P.dropWhile (fun c => !netlocStop c), []) := by
  rcases dropWhile_head_not (fun c => !netlocStop c) P with hnil | ⟨c, t, hD, hc⟩
  · rw [hnil]; rfl
  · have hc' : netlocStop c = true := by simpa using hc
    have hcP : c ∈ P := mem_of_mem_dropWhile _ _ _ (hD ▸ List.mem_cons_self c t)
    have hcslash : c = '/' := by
      simp only [netlocStop, Bool.or_eq_true, decide_eq_true_eq] at hc'
      rcases hc' with (h | h) | h
      · exact h
      · exact absurd (h ▸ hcP) hq
      · exact absurd (h ▸ hcP) hh
    have hslashP : '/' ∈ P := hcslash ▸ hcP
    cases hls : splitLastSlash P with
    | none => exact absurd hslashP (splitLastSlash_none_spec P hls)
    | some pp =>
      obtain ⟨pre, post⟩ := pp
      obtain ⟨heq, hpost⟩ := splitLastSlash_some_spec P pre post hls
      have hsemi : splitOnce ';' post = none := by
        cases hso : splitOnce ';' post with
        | none => rfl
        | some ab =>
          obtain ⟨a, b⟩ := ab
          rw [splitParams_ss P pre post a b hls hso] at hP
          have hfst : pre ++ '/' :: a = P := congrArg Prod.fst hP
          obtain ⟨heq2, -⟩ := splitOnce_eq_some hso
          have heq2' : post = a ++ ';' :: b := heq2
          rw [heq] at hfst
          have h2 := List.append_cancel_left hfst
          have ha : a = post := by injection h2
          rw [ha] at heq2'
          have hl := congrArg List.length heq2'
          rw [List.length_append, List.length_cons] at hl
          omega
      have hD2 : P.dropWhile (fun c => !netlocStop c)
          = pre.dropWhile (fun c => !netlocStop c) ++ '/' :: post := by
        rw [heq, dropWhile_append_cases]
        split
        · rename_i hnil2
          rw [List.dropWhile_cons, if_neg (by simp [netlocStop]), hnil2]
          rfl
        · rfl
      rw [hD2]
      exact splitParams_sn _ _ post (splitLastSlash_append _ post hpost) hsemi

end Urllib

namespace Urllib

open Py

/-- `splitFragQuery` on a fragment- and query-free string is the identity. -/
theorem splitFragQuery_of_not_mem (u : Str) (hh : '#' ∉ u) (hq : '?' ∉ u) :
    splitFragQuery u = (u, [], []) := by
  simp [splitFragQuery, splitOnce_of_not_mem '#' u hh, splitOnce_of_not_mem '?' u hq]

/-- `splitFragQuery` splits off an explicit query when no fragment occurs. -/
theorem splitFragQuery_query (d enc : Str) (hhd : '#' ∉ d) (hqd : '?' ∉ d)
    (hhe : '#' ∉ enc) : splitFragQuery (d ++ '?' :: enc) = (d, enc, []) := by
  have h1 : splitOnce '#' (d ++ '?' :: enc) = none := by
    apply splitOnce_of_not_mem
    intro hm
    rcases List.mem_append.mp hm with hin | hin
    · exact hhd hin
    · rcases List.mem_cons.mp hin with e | hin'
      · exact absurd e (by decide)
      · exact hhe hin'
  have h2 : splitOnce '?' (d ++ '?' :: enc) = some (d, enc) := splitOnce_append '?' d enc hqd
  simp [splitFragQuery, h1, h2]

/-- The path component of `splitFragQuery` holds no `#` and no `?`. -/
theorem splitFragQuery_fst_not_mem (u : Str) :
    '#' ∉ (splitFragQuery u).1 ∧ '?' ∉ (splitFragQuery u).1 := by
  cases h1 : splitOnce '#' u with
  | some p1 =>
    obtain ⟨a1, b1⟩ := p1
    have spec1 := splitOnce_eq_some h1
    have hn1 : '#' ∉ a1 := spec1.2
    cases h2 : splitOnce '?' a1 with
    | some p2 =>
      obtain ⟨a2, b2⟩ := p2
      have spec2 := splitOnce_eq_some h2
      have hfst : (splitFragQuery u).1 = a2 := by simp [splitFragQuery, h1, h2]
      rw [hfst]
      refine ⟨fun hm => hn1 ?_, spec2.2⟩
      rw [show a1 = a2 ++ '?' :: b2 from spec2.1]
      exact List.mem_append.mpr (Or.inl hm)
    | none =>
      have hfst : (splitFragQuery u).1 = a1 := by simp [splitFragQuery, h1, h2]
      rw [hfst]
      exact ⟨hn1, splitOnce_none h2⟩
  | none =>
    have hn1 : '#' ∉ u := splitOnce_none h1
    cases h2 : splitOnce '?' u with
    | some p2 =>
      obtain ⟨a2, b2⟩ := p2
      have spec2 := splitOnce_eq_some h2
      have hfst : (splitFragQuery u).1 = a2 := by simp [splitFragQuery, h1, h2]
      rw [hfst]
      refine ⟨fun hm => hn1 ?_, spec2.2⟩
      rw [show u = a2 ++ '?' :: b2 from spec2.1]
      exact List.mem_append.mpr (Or.inl hm)
    | none =>
      have hfst : (splitFragQuery u).1 = u := by simp [splitFragQuery, h1, h2]
      rw [hfst]
      exact ⟨hn1, splitOnce_none h2⟩

/-- Component facts guaranteed by a successful `urlsplit`. -/
theorem urlsplit_ok_spec (u : Str) (r : SplitResult) (h : urlsplit u = .ok r) :
    r.scheme = (splitScheme u).1 ∧
    (∀ x ∈ r.netloc, netlocStop x = false) ∧
    '#' ∉ r.path ∧ '?' ∉ r.path := by
  unfold urlsplit at h
  simp only [] at h
  revert h
  split
  · rename_i r0 hsp
    intro h
    split at h
    · exact absurd h (by simp)
    · have h2 : Except.ok (⟨(splitScheme u).1,
          r0.takeWhile (fun c => !netlocStop c),
          (splitFragQuery (r0.dropWhile fun c => !netlocStop c)).1,
          (splitFragQuery (r0.dropWhile fun c => !netlocStop c)).2.1,
          (splitFragQuery (r0.dropWhile fun c => !netlocStop c)).2.2⟩ : SplitResult)
          = Except.ok r := h
      injection h2 with h3
      rw [← h3]
      refine ⟨rfl, ?_, ?_, ?_⟩
      · intro x hx
        have := List.mem_takeWhile_imp hx
        simpa using this
      · exact (splitFragQuery_fst_not_mem _).1
      · exact (splitFragQuery_fst_not_mem _).2
  · rename_i rest hne
    intro h
    have h2 : Except.ok (⟨(splitScheme u).1, [],
        (splitFragQuery (splitScheme u).2).1, (splitFragQuery (splitScheme u).2).2.1,
        (splitFragQuery (splitScheme u).2).2.2⟩ : SplitResult) = Except.ok r := h
    injection h2 with h3
    rw [← h3]
    refine ⟨rfl, ?_, ?_, ?_⟩
    · intro x hx
      exact absurd hx (List.not_mem_nil x)
    · exact (splitFragQuery_fst_not_mem _).1
    · exact (splitFragQuery_fst_not_mem _).2

/-- Component facts guaranteed by a successful `urlparse`. -/
theorem urlparse_ok_spec (u : Str) (p : ParseResult) (h : urlparse u = .ok p) :
    p.scheme = (splitScheme u).1 ∧
    (∀ x ∈ p.netloc, netlocStop x = false) ∧
    '#' ∉ p.path ∧ '?' ∉ p.path ∧
    splitParams p.path = (p.path, []) := by
  unfold urlparse at h
  cases hs : urlsplit u with
  | error e => rw [hs] at h; exact absurd h (by simp)
  | ok r =>
    rw [hs] at h
    have h2 : Except.ok (⟨r.scheme, r.netloc, (splitParams r.path).1,
        (splitParams r.path).2, r.query, r.fragment⟩ : ParseResult) = Except.ok p := h
    injection h2 with h3
    obtain ⟨hsch, hnet, hhp, hqp⟩ := urlsplit_ok_spec u r hs
    rw [← h3]
    refine ⟨hsch, hnet, ?_, ?_, ?_⟩
    · exact fun hm => hhp (mem_splitParams_fst r.path '#' hm)
    · exact fun hm => hqp (mem_splitParams_fst r.path '?' hm)
    · exact splitParams_fst_idem r.path

end Urllib

namespace Urllib

open Py

/-- Re-encoding the canonical form of a query string is a fixpoint. -/
theorem canonical_query_stable (q : Str) :
    urlencode (sortItems (parse_qs (urlencode (sortItems (parse_qs q)))))
      = urlencode (sortItems (parse_qs q)) := by
  have hnd : ((parse_qs q).map Prod.fst).Nodup := parse_qs_keys_nodup q
  have hsorted := sortItems_sorted (parse_qs q) hnd
  have hnd' : ((sortItems (parse_qs q)).map Prod.fst).Nodup := sorted_keys_nodup _ hsorted
  have hvl : ∀ kv ∈ sortItems (parse_qs q), kv.2 ≠ [] := fun kv hkv =>
    parse_qs_val_lists_ne_nil q kv ((mem_sortItems kv _).mp hkv)
  have hvs : ∀ kv ∈ sortItems (parse_qs q), ∀ w ∈ kv.2, w ≠ [] := by
    intro kv hkv w hw
    obtain ⟨pr, hpr, hpw⟩ := parse_qs_val_strings q kv ((mem_sortItems kv _).mp hkv) w hw
    rw [← hpw]
    exact parse_qsl_vals_ne_nil q pr hpr
  rw [parse_qs_urlencode _ hnd' hvl hvs, sortItems_of_sorted _ hsorted]

/-- The canonical re-encoding of a non-trivial query string is non-empty. -/
theorem canonical_query_ne_nil {q : Str} (hq : parse_qsl q ≠ []) :
    urlencode (sortItems (parse_qs q)) ≠ [] :=
  urlencode_ne_nil _ (sortItems_ne_nil (parse_qs_ne_nil hq))
    (fun kv hkv => parse_qs_val_lists_ne_nil q kv ((mem_sortItems kv _).mp hkv))

/-- `urlsplit` of a reconstructed `scheme://...` URL, with the scheme already
in lowered form. -/
theorem urlsplit_reconstruct (c : Char) (t W : Str)
    (ha : isAsciiAlpha c = true) (hok : ∀ x ∈ t, schemeCharOk x = true) :
    urlsplit (lower (c :: t) ++ ':' :: '/' :: '/' :: W) =
      (if ((W.takeWhile fun x => !netlocStop x).contains '[' &&
            !(W.takeWhile fun x => !netlocStop x).contains ']' ||
          (W.takeWhile fun x => !netlocStop x).contains ']' &&
            !(W.takeWhile fun x => !netlocStop x).contains '[') = true
       then Except.error ()
       else Except.ok ⟨lower (c :: t), W.takeWhile fun x => !netlocStop x,
         (splitFragQuery (W.dropWhile fun x => !netlocStop x)).1,
         (splitFragQuery (W.dropWhile fun x => !netlocStop x)).2.1,
         (splitFragQuery (W.dropWhile fun x => !netlocStop x)).2.2⟩) := by
  unfold urlsplit
  rw [splitScheme_reconstruct c t _ ha hok]
  rfl

end Urllib

namespace Urllib

open Py

/-- `urlparse` equation on a successful `urlsplit`, with the params split
supplied. -/
theorem urlparse_of_urlsplit (url s n pa q f pa2 pr : Str)
    (h : urlsplit url = .ok ⟨s, n, pa, q, f⟩) (hpp : splitParams pa = (pa2, pr)) :
    urlparse url = .ok ⟨s, n, pa2, pr, q, f⟩ := by
  unfold urlparse
  rw [h]
  show Except.ok (⟨s, n, (splitParams pa).1, (splitParams pa).2, q, f⟩ : ParseResult)
    = Except.ok (⟨s, n, pa2, pr, q, f⟩ : ParseResult)
  rw [hpp]

/-- `urlparse` propagates an `urlsplit` failure. -/
theorem urlparse_of_urlsplit_error (url : Str) (h : urlsplit url = .error ()) :
    urlparse url = .error () := by
  unfold urlparse
  rw [h]

/-- `takeWhile` up to the netloc stop characters ignores an appended query. -/
theorem takeWhile_path_query (path enc : Str) :
    (path ++ '?' :: enc).takeWhile (fun x => !netlocStop x)
      = path.takeWhile (fun x => !netlocStop x) := by
  rw [Py.takeWhile_append_cases]
  rw [show ('?' :: enc).takeWhile (fun x => !netlocStop x) = [] by
    rw [List.takeWhile_cons, if_neg (by decide)]]
  rw [ite_self, List.append_nil]

/-- `dropWhile` up to the netloc stop characters keeps an appended query. -/
theorem dropWhile_path_query (path enc : Str) :
    (path ++ '?' :: enc).dropWhile (fun x => !netlocStop x)
      = path.dropWhile (fun x => !netlocStop x) ++ '?' :: enc := by
  rw [Py.dropWhile_append_cases]
  split
  · rename_i h0
    rw [List.dropWhile_cons, if_neg (by decide), h0]
    rfl
  · rfl

end Urllib

namespace Utils

/-- `normalize_url` equation on a successful `urlparse`. -/
theorem normalize_url_of_urlparse (url : Str) (p : Urllib.ParseResult)
    (h : Urllib.urlparse url = .ok p) :
    normalize_url url =
      (if p.query ≠ [] then
        (p.scheme ++ ':' :: '/' :: '/' :: (p.netloc ++ p.path)) ++
          '?' :: Urllib.urlencode (Urllib.sortItems (Urllib.parse_qs p.query))
      else p.scheme ++ ':' :: '/' :: '/' :: (p.netloc ++ p.path)) := by
  unfold normalize_url
  rw [h]

/-- `normalize_url` equation when `urlparse` raises. -/
theorem normalize_url_of_error (url : Str) (h : Urllib.urlparse url = .error ()) :
    normalize_url url = url := by
  unfold normalize_url
  rw [h]

end Utils

/-- C9 (corrected): `utils.normalize_url` is idempotent on every URL that
`urlparse` accepts with a non-empty scheme and whose query component is absent
or yields at least one pair under `parse_qsl`.  The unrestricted idempotence
claimed by the spec fails: a query that parses to no pairs leaves a dangling
`?` that the second pass strips (see the counterexample). -/
theorem claim_C9_amended (u : Str) (p : Urllib.ParseResult)
    (hp : Urllib.urlparse u = Except.ok p) (hs : p.scheme ≠ [])
    (hq : p.query = [] ∨ Urllib.parse_qsl p.query ≠ []) :
    Utils.normalize_url (Utils.normalize_url u) = Utils.normalize_url u := by
  obtain ⟨hsch, hnet, hhp, hqp, hparam⟩ := Urllib.urlparse_ok_spec u p hp
  rw [hsch] at hs
  obtain ⟨c, t, ha, hok, hlow⟩ := Urllib.splitScheme_fst_spec u hs
  have hschlow : p.scheme = Py.lower (c :: t) := hsch.trans hlow
  have hnet' : ∀ x ∈ p.netloc, (fun x => !Urllib.netlocStop x) x = true := by
    intro x hx
    show (!Urllib.netlocStop x) = true
    rw [hnet x hx]
    rfl
  have hnd : (p.netloc ++ p.path.takeWhile (fun x => !Urllib.netlocStop x)) ++
      p.path.dropWhile (fun x => !Urllib.netlocStop x) = p.netloc ++ p.path := by
    rw [List.append_assoc, List.takeWhile_append_dropWhile]
  have hhD : '#' ∉ p.path.dropWhile (fun x => !Urllib.netlocStop x) :=
    fun hm => hhp (Py.mem_of_mem_dropWhile _ _ _ hm)
  have hqD : '?' ∉ p.path.dropWhile (fun x => !Urllib.netlocStop x) :=
    fun hm => hqp (Py.mem_of_mem_dropWhile _ _ _ hm)
  have hspD := Urllib.splitParams_fst_dropWhile p.path hparam hhp hqp
  rcases hq with hq0 | hqne
  · have hv : Utils.normalize_url u
        = Py.lower (c :: t) ++ ':' :: '/' :: '/' :: (p.netloc ++ p.path) := by
      rw [Utils.normalize_url_of_urlparse u p hp, if_neg (by simp [hq0]), hschlow]
    rw [hv]
    have hw := Urllib.urlsplit_reconstruct c t (p.netloc ++ p.path) ha hok
    rw [Py.takeWhile_append_all _ _ _ hnet', Py.dropWhile_append_all _ _ _ hnet'] at hw
    rw [Urllib.splitFragQuery_of_not_mem _ hhD hqD] at hw
    split at hw
    · rw [Utils.normalize_url_of_error _ (Urllib.urlparse_of_urlsplit_error _ hw)]
    · have hw2 : Urllib.urlsplit
          (Py.lower (c :: t) ++ ':' :: '/' :: '/' :: (p.netloc ++ p.path))
          = Except.ok ⟨Py.lower (c :: t),
              p.netloc ++ p.path.takeWhile (fun x => !Urllib.netlocStop x),
              p.path.dropWhile (fun x => !Urllib.netlocStop x), [], []⟩ := hw
      have hup := Urllib.urlparse_of_urlsplit _ _ _ _ _ _ _ _ hw2 hspD
      rw [Utils.normalize_url_of_urlparse _ _ hup, if_neg (by simp)]
      show Py.lower (c :: t) ++ ':' :: '/' :: '/' ::
          ((p.netloc ++ p.path.takeWhile (fun x => !Urllib.netlocStop x)) ++
            p.path.dropWhile (fun x => !Urllib.netlocStop x))
        = Py.lower (c :: t) ++ ':' :: '/' :: '/' :: (p.netloc ++ p.path)
      rw [hnd]
  · have hencne : Urllib.urlencode (Urllib.sortItems (Urllib.parse_qs p.query)) ≠ [] :=
      Urllib.canonical_query_ne_nil hqne
    have hpq : p.query ≠ [] := by
      intro e
      rw [e] at hqne
      exact hqne rfl
    have hhenc : '#' ∉ Urllib.urlencode (Urllib.sortItems (Urllib.parse_qs p.query)) :=
      fun hm => (Urllib.urlencode_no_hash_question _ '#' hm).1 rfl
    have hv : Utils.normalize_url u
        = Py.lower (c :: t) ++ ':' :: '/' :: '/' ::
            (p.netloc ++ (p.path ++ '?' ::
              Urllib.urlencode (Urllib.sortItems (Urllib.parse_qs p.query)))) := by
      rw [Utils.normalize_url_of_urlparse u p hp, if_pos hpq, hschlow]
      simp [List.append_assoc]
    rw [hv]
    have hw := Urllib.urlsplit_reconstruct c t
      (p.netloc ++ (p.path ++ '?' ::
        Urllib.urlencode (Urllib.sortItems (Urllib.parse_qs p.query)))) ha hok
    rw [Py.takeWhile_append_all _ _ _ hnet', Py.dropWhile_append_all _ _ _ hnet'] at hw
    rw [Urllib.takeWhile_path_query, Urllib.dropWhile_path_query] at hw
    rw [Urllib.splitFragQuery_query _ _ hhD hqD hhenc] at hw
    split at hw
    · rw [Utils.normalize_url_of_error _ (Urllib.urlparse_of_urlsplit_error _ hw)]
    · have hw2 : Urllib.urlsplit
          (Py.lower (c :: t) ++ ':' :: '/' :: '/' ::
            (p.netloc ++ (p.path ++ '?' ::
              Urllib.urlencode (Urllib.sortItems (Urllib.parse_qs p.query)))))
          = Except.ok ⟨Py.lower (c :: t),
              p.netloc ++ p.path.takeWhile (fun x => !Urllib.netlocStop x),
              p.path.dropWhile (fun x => !Urllib.netlocStop x),
              Urllib.urlencode (Urllib.sortItems (Urllib.parse_qs p.query)), []⟩ := hw
      have hup := Urllib.urlparse_of_urlsplit _ _ _ _ _ _ _ _ hw2 hspD
      rw [Utils.normalize_url_of_urlparse _ _ hup, if_pos hencne]
      show (Py.lower (c :: t) ++ ':' :: '/' :: '/' ::
          ((p.netloc ++ p.path.takeWhile (fun x => !Urllib.netlocStop x)) ++
            p.path.dropWhile (fun x => !Urllib.netlocStop x))) ++
          '?' :: Urllib.urlencode (Urllib.sortItems (Urllib.parse_qs
            (Urllib.urlencode (Urllib.sortItems (Urllib.parse_qs p.query)))))
        = Py.lower (c :: t) ++ ':' :: '/' :: '/' ::
            (p.netloc ++ (p.path ++ '?' ::
              Urllib.urlencode (Urllib.sortItems (Urllib.parse_qs p.query))))
      rw [Urllib.canonical_query_stable p.query, hnd]
      simp [List.append_assoc]

/-- Witness for C9: a concrete URL with scheme, netloc and a two-parameter
query on which the amended idempotence theorem applies. -/
theorem claim_C9_witness :
    Urllib.urlparse "http://h/p?b=2&a=1".toList
        = Except.ok ⟨"http".toList, "h".toList, "/p".toList, [], "b=2&a=1".toList, []⟩ ∧
      ("http".toList : Str) ≠ [] ∧
      (("b=2&a=1".toList : Str) = [] ∨ Urllib.parse_qsl "b=2&a=1".toList ≠ []) ∧
      Utils.normalize_url (Utils.normalize_url "http://h/p?b=2&a=1".toList)
        = Utils.normalize_url "http://h/p?b=2&a=1".toList :=
  ⟨by decide, by decide, Or.inr (by decide),
    claim_C9_amended "http://h/p?b=2&a=1".toList
      ⟨"http".toList, "h".toList, "/p".toList, [], "b=2&a=1".toList, []⟩
      (by decide) (by decide) (Or.inr (by decide))⟩

/-- C9 counterexample to the spec's unrestricted idempotence: the query `x`
parses to no pairs, so normalizing once leaves `http://h/p?` and normalizing
again strips the bare `?`. -/
theorem claim_C9_counterexample :
    Utils.normalize_url (Utils.normalize_url "http://h/p?x".toList)
      ≠ Utils.normalize_url "http://h/p?x".toList := by decide

/-- C2 (corrected): the sorted re-encoding of query parameters holds for the
standalone `utils.normalize_url` — its canonical parameter dict is sorted by
key for every query string, and the spec's example pair normalizes
identically — but not for the crawler's own normalizer, which keeps the query
string verbatim (see the counterexample). -/
theorem claim_C2_amended :
    (∀ q : Str, (Urllib.sortItems (Urllib.parse_qs q)).Pairwise
        (fun a b => Urllib.strLt a.1 b.1 = true)) ∧
    Utils.normalize_url "http://h/p?b=2&a=1".toList
      = Utils.normalize_url "http://h/p?a=1&b=2".toList :=
  ⟨fun q => Urllib.sortItems_sorted _ (Urllib.parse_qs_keys_nodup q), by decide⟩

/-- C2 counterexample for the crawler's normalizer used on discovered links:
`WebCrawler.normalize_url` keeps the query verbatim, so the spec's example pair
stays distinct. -/
theorem claim_C2_counterexample :
    WebCrawler.normalize_url "http://h/p?b=2&a=1".toList
      ≠ WebCrawler.normalize_url "http://h/p?a=1&b=2".toList := by decide
